import Mathlib

set_option maxHeartbeats 1000000

/-!
Verification of the RRef reference-counting context declared in
torch/csrc/distributed/rpc/rref_context.h.  The repository snapshot contains
only the header: the bodies that live in rref_context.cpp are therefore
modelled from the specification text (such definitions carry a doc comment
starting with "Modelled from the spec:"), while the inline members of the
header (genGloballyUniqueId, PendingUserState::confirm, the default argument
of destroyInstance, and the table layout of the class) are embedded directly
from the source.
-/

abbrev worker_id_t := Nat

abbrev local_id_t := Nat

/-- GloballyUniqueId: the pair of the creating worker's id and a locally
monotonically increasing sequence number (types.h, used by rref_context.h). -/
structure GloballyUniqueId where
  createdOn : worker_id_t
  localId : local_id_t
deriving DecidableEq

/-- RRefId identifies the logical remote object (its Owner's creation event). -/
abbrev RRefId := GloballyUniqueId

/-- ForkId identifies one specific handle instance of a reference. -/
abbrev ForkId := GloballyUniqueId

/-- Declared types carried by references (TypePtr) are abstracted to tokens;
only equality of types matters to the context. -/
abbrev TypePtr := Nat

/-- Owner variant of a reference: holds the value (or is pending
materialization, in which case hasValue is false). -/
structure OwnerRRef where
  rrefId : RRefId
  type : TypePtr
  hasValue : Bool
deriving DecidableEq

/-- User variant of a reference: a remote handle with its own ForkId. -/
structure UserRRef where
  ownerId : worker_id_t
  rrefId : RRefId
  forkId : ForkId
  type : TypePtr
  confirmedByOwner : Bool
deriving DecidableEq

/-- PendingUserState (rref_context.h lines 209-221): wraps a not yet
acknowledged UserRRef together with its single-shot completion future. -/
structure PendingUserState where
  rref : UserRRef
  futureCompleted : Bool
deriving DecidableEq

/-- Error taxonomy of the context (spec section 7). -/
inductive RRefError where
  | DuplicateFork
  | TypeMismatch
  | AlreadyConfirmedOrUnknown
  | RRefLeakDetected
deriving DecidableEq

/-- Association-list lookup keyed by decidable equality; models
unordered_map::find. -/
def alookup {α β : Type} [DecidableEq α] (k : α) : List (α × β) → Option β
  | [] => none
  | p :: rest => if k = p.1 then some p.2 else alookup k rest

/-- Association-list erase of a key; models unordered_map::erase. -/
def aerase {α β : Type} [DecidableEq α] (k : α) : List (α × β) → List (α × β)
  | [] => []
  | p :: rest => if k = p.1 then aerase k rest else p :: aerase k rest

/-- Association-list overwrite of a key; models map indexing assignment. -/
def aset {α β : Type} [DecidableEq α] (k : α) (v : β) (l : List (α × β)) :
    List (α × β) :=
  (k, v) :: aerase k l

/-- Association-list insert-if-absent; models unordered_map::emplace. -/
def aemplace {α β : Type} [DecidableEq α] (k : α) (v : β) (l : List (α × β)) :
    List (α × β) :=
  match alookup k l with
  | some _ => l
  | none => (k, v) :: l

/-- Removal of a ForkId from a fork set; models unordered_set::erase. -/
def eraseFork (f : ForkId) : List ForkId → List ForkId
  | [] => []
  | g :: rest => if g = f then eraseFork f rest else g :: eraseFork f rest

/-- The in-memory tables of RRefContext (rref_context.h lines 236-322),
together with an explicit log of the RREF_USER_DELETE notices handed to the
RPC agent, so that temporal claims about notice emission can be stated.
Futures for pending owners are identified by allocation order in
nextOwnerFutureId and are completed by entering completedOwnerFutures;
completedUserFutures records the completion of PendingUserState futures. -/
structure RRefContext where
  workerId : worker_id_t
  nextLocalId : local_id_t
  owners : List (RRefId × OwnerRRef)
  pendingOwners : List (RRefId × Nat)
  nextOwnerFutureId : Nat
  completedOwnerFutures : List (Nat × OwnerRRef)
  forks : List (RRefId × List ForkId)
  pendingUsers : List (ForkId × PendingUserState)
  confirmedUsers : List (ForkId × UserRRef)
  pendingChildren : List (ForkId × UserRRef)
  pendingDeletions : List ForkId
  completedUserFutures : List ForkId
  userTable : List ForkId
  recording : Bool
  sentDeleteNotices : List (worker_id_t × RRefId × ForkId)
deriving DecidableEq

/-- A context with all tables empty, as after construction. -/
def emptyContext (wid : worker_id_t) : RRefContext :=
  { workerId := wid
    nextLocalId := 0
    owners := []
    pendingOwners := []
    nextOwnerFutureId := 0
    completedOwnerFutures := []
    forks := []
    pendingUsers := []
    confirmedUsers := []
    pendingChildren := []
    pendingDeletions := []
    completedUserFutures := []
    userTable := []
    recording := false
    sentDeleteNotices := [] }

/-- genGloballyUniqueId (rref_context.h lines 64-66): returns
GloballyUniqueId(getWorkerId(), nextLocalId_++). -/
def genGloballyUniqueId (ctx : RRefContext) : GloballyUniqueId × RRefContext :=
  (⟨ctx.workerId, ctx.nextLocalId⟩, { ctx with nextLocalId := ctx.nextLocalId + 1 })

/-- The fork set tracked for an RRefId in forks_; an absent key is the empty
set. -/
def forksOf (ctx : RRefContext) (rrefId : RRefId) : List ForkId :=
  (alookup rrefId ctx.forks).getD []

/-- Whether an Owner reference for rrefId is registered in owners_. -/
def ownerRegistered (ctx : RRefContext) (rrefId : RRefId) : Bool :=
  (alookup rrefId ctx.owners).isSome

/-- Whether the registered Owner for rrefId is still pending materialization
(its value has not been set). -/
def ownerPendingMaterialization (ctx : RRefContext) (rrefId : RRefId) : Bool :=
  match alookup rrefId ctx.owners with
  | some o => !o.hasValue
  | none => false

/-- Modelled from the spec: addForkOfOwner (declared rref_context.h line 124,
body in the missing rref_context.cpp) inserts forkId into the fork set for
rrefId and fails with DuplicateFork if it is already present. -/
def addForkOfOwner (ctx : RRefContext) (rrefId : RRefId) (forkId : ForkId) :
    Except RRefError RRefContext :=
  if forkId ∈ forksOf ctx rrefId then Except.error RRefError.DuplicateFork
  else Except.ok { ctx with forks := aset rrefId (forkId :: forksOf ctx rrefId) ctx.forks }

/-- Modelled from the spec: addForkOfOwnerIfNotPresent (declared
rref_context.h line 128, body in the missing rref_context.cpp) performs the
same insertion but is idempotent: a duplicate request leaves the tables
unchanged and reports no error. -/
def addForkOfOwnerIfNotPresent (ctx : RRefContext) (rrefId : RRefId)
    (forkId : ForkId) : RRefContext :=
  if forkId ∈ forksOf ctx rrefId then ctx
  else { ctx with forks := aset rrefId (forkId :: forksOf ctx rrefId) ctx.forks }

/-- Modelled from the spec: delForkOfOwner (declared rref_context.h lines
138-140, body in the missing rref_context.cpp) removes forkId from the fork
set of rrefId; if the fork set thereby becomes empty and the Owner's
materialization is not pending, it removes the Owner reference from owners_
and returns it to the caller, and in every other case it returns none. -/
def delForkOfOwner (ctx : RRefContext) (rrefId : RRefId) (forkId : ForkId) :
    Option OwnerRRef × RRefContext :=
  let remaining := eraseFork forkId (forksOf ctx rrefId)
  if remaining.isEmpty then
    match alookup rrefId ctx.owners with
    | some o =>
      if o.hasValue then
        (some o, { ctx with forks := aerase rrefId ctx.forks,
                            owners := aerase rrefId ctx.owners })
      else
        (none, { ctx with forks := aerase rrefId ctx.forks })
    | none => (none, { ctx with forks := aerase rrefId ctx.forks })
  else
    (none, { ctx with forks := aset rrefId remaining ctx.forks })

/-- Modelled from the spec: createOwnerRRef (declared rref_context.h line
102, body in the missing rref_context.cpp) generates a fresh RRefId, creates
an Owner reference with materialization pending, registers it and returns
it. -/
def createOwnerRRef (ctx : RRefContext) (ty : TypePtr) :
    OwnerRRef × RRefContext :=
  let p := genGloballyUniqueId ctx
  let o : OwnerRRef := { rrefId := p.1, type := ty, hasValue := false }
  (o, { p.2 with owners := aset p.1 o p.2.owners })

/-- Modelled from the spec: completing the materialization of a registered
Owner (OwnerRRef::setValue, outside the header) sets its value; the Owner
then holds a live payload. -/
def setOwnerValue (ctx : RRefContext) (rrefId : RRefId) : RRefContext :=
  match alookup rrefId ctx.owners with
  | some o => { ctx with owners := aset rrefId { o with hasValue := true } ctx.owners }
  | none => ctx

/-- Modelled from the spec: getOrCreateOwnerRRef (declared rref_context.h
lines 92-94, body in the missing rref_context.cpp).  If rrefId is registered
it returns the registered Owner after validating the declared type
(TypeMismatch otherwise, first-writer-wins); otherwise it creates and
registers an Owner pending materialization and, if a pending-owner future
exists for this id, completes that future with the new reference and removes
the entry from pendingOwners_. -/
def getOrCreateOwnerRRef (ctx : RRefContext) (rrefId : RRefId) (ty : TypePtr) :
    Except RRefError (OwnerRRef × RRefContext) :=
  match alookup rrefId ctx.owners with
  | some o =>
    if o.type = ty then Except.ok (o, ctx) else Except.error RRefError.TypeMismatch
  | none =>
    let o : OwnerRRef := { rrefId := rrefId, type := ty, hasValue := false }
    let ctx1 := { ctx with owners := aset rrefId o ctx.owners }
    match alookup rrefId ctx.pendingOwners with
    | some futId =>
      Except.ok (o, { ctx1 with
        completedOwnerFutures := aset futId o ctx1.completedOwnerFutures,
        pendingOwners := aerase rrefId ctx1.pendingOwners })
    | none => Except.ok (o, ctx1)

/-- Modelled from the spec: getOwnerRRef (declared rref_context.h lines
107-108, body in the missing rref_context.cpp).  If the Owner is registered
it returns a freshly allocated, already-completed future wrapping it;
otherwise it returns the single pending-owner future for this id, creating
the entry only if none exists yet. -/
def getOwnerRRef (ctx : RRefContext) (rrefId : RRefId) : Nat × RRefContext :=
  match alookup rrefId ctx.owners with
  | some o =>
    (ctx.nextOwnerFutureId,
     { ctx with completedOwnerFutures := aset ctx.nextOwnerFutureId o ctx.completedOwnerFutures,
                nextOwnerFutureId := ctx.nextOwnerFutureId + 1 })
  | none =>
    match alookup rrefId ctx.pendingOwners with
    | some futId => (futId, ctx)
    | none =>
      (ctx.nextOwnerFutureId,
       { ctx with pendingOwners := aset rrefId ctx.nextOwnerFutureId ctx.pendingOwners,
                  nextOwnerFutureId := ctx.nextOwnerFutureId + 1 })

/-- The value carried by an owner future, none while it is incomplete. -/
def ownerFutureValue (ctx : RRefContext) (futId : Nat) : Option OwnerRRef :=
  alookup futId ctx.completedOwnerFutures

/-- Modelled from the spec: addPendingUser (declared rref_context.h lines
167-169, body in the missing rref_context.cpp) registers a new UserRRef in
pendingUsers_ wrapped in a PendingUserState and, while a thread-local
recording window is open, appends it to the scoped userTable_. -/
def addPendingUser (ctx : RRefContext) (forkId : ForkId) (rref : UserRRef) :
    RRefContext :=
  { ctx with
    pendingUsers := aset forkId { rref := rref, futureCompleted := false } ctx.pendingUsers,
    userTable := if ctx.recording then ctx.userTable ++ [forkId] else ctx.userTable }

/-- Modelled from the spec: createUserRRef (declared rref_context.h lines
73-75, body in the missing rref_context.cpp) generates a fresh RRefId and a
fresh ForkId, builds a User reference and registers it in pending-users. -/
def createUserRRef (ctx : RRefContext) (ownerId : worker_id_t) (ty : TypePtr) :
    UserRRef × RRefContext :=
  let p := genGloballyUniqueId ctx
  let q := genGloballyUniqueId p.2
  let u : UserRRef :=
    { ownerId := ownerId, rrefId := p.1, forkId := q.1, type := ty,
      confirmedByOwner := false }
  (u, addPendingUser q.2 q.1 u)

/-- The two primitive actions performed by PendingUserState::confirm
(rref_context.h lines 212-215), in source order: first the wrapped UserRRef
is marked confirmed, then the completion future is marked completed. -/
inductive ConfirmAction where
  | markRRefConfirmed
  | markFutureCompleted
deriving DecidableEq

/-- The action sequence of PendingUserState::confirm as written in the
source: rref_->confirm() and then future_.markCompleted(true). -/
def PendingUserState.confirmActions : List ConfirmAction :=
  [ConfirmAction.markRRefConfirmed, ConfirmAction.markFutureCompleted]

/-- Effect of one primitive action of PendingUserState::confirm. -/
def PendingUserState.applyAction (s : PendingUserState) :
    ConfirmAction → PendingUserState
  | ConfirmAction.markRRefConfirmed =>
    { s with rref := { s.rref with confirmedByOwner := true } }
  | ConfirmAction.markFutureCompleted => { s with futureCompleted := true }

/-- Running an action sequence of PendingUserState::confirm. -/
def PendingUserState.runActions (s : PendingUserState)
    (l : List ConfirmAction) : PendingUserState :=
  l.foldl PendingUserState.applyAction s

/-- PendingUserState::confirm (rref_context.h lines 212-215): runs its two
actions in source order. -/
def PendingUserState.confirm (s : PendingUserState) : PendingUserState :=
  PendingUserState.runActions s PendingUserState.confirmActions

/-- Modelled from the spec: addConfirmedUser (declared rref_context.h lines
171-173, body in the missing rref_context.cpp) records a UserRRef in
confirmedUsers_. -/
def addConfirmedUser (ctx : RRefContext) (forkId : ForkId) (rref : UserRRef) :
    RRefContext :=
  { ctx with confirmedUsers := aset forkId rref ctx.confirmedUsers }

/-- Modelled from the spec: delPendingUser (declared rref_context.h line 170,
body in the missing rref_context.cpp) moves a ForkId from pending-users to
confirmed-users once the Owner's acknowledgement is processed and runs
PendingUserState::confirm, whose future completion is recorded in
completedUserFutures. -/
def delPendingUser (ctx : RRefContext) (forkId : ForkId) : RRefContext :=
  match alookup forkId ctx.pendingUsers with
  | none => ctx
  | some st =>
    let st' := PendingUserState.confirm st
    addConfirmedUser
      { ctx with
        pendingUsers := aerase forkId ctx.pendingUsers,
        completedUserFutures := ctx.completedUserFutures ++ [forkId] }
      forkId st'.rref

/-- The pending-children entries whose held reference is the given parent
fork: the entries keeping that parent alive. -/
def valuesHolding (f : ForkId) : List (ForkId × UserRRef) → List (ForkId × UserRRef)
  | [] => []
  | e :: rest =>
    if e.2.forkId = f then e :: valuesHolding f rest else valuesHolding f rest

/-- Modelled from the spec: addPendingChild (declared rref_context.h lines
160-162, body in the missing rref_context.cpp) holds the forwarded parent
reference alive under the new child's ForkId until RREF_CHILD_ACCEPT
arrives; a duplicate registration is not created. -/
def addPendingChild (ctx : RRefContext) (childForkId : ForkId)
    (parent : UserRRef) : RRefContext :=
  { ctx with pendingChildren := aemplace childForkId parent ctx.pendingChildren }

/-- The unconditional body of delUser (declared rref_context.h lines 200-203,
body in the missing rref_context.cpp): remove the fork from confirmed-users
and send the RREF_USER_DELETE notice to the Owner. -/
def performDelUser (ctx : RRefContext) (owner : worker_id_t) (rrefId : RRefId)
    (forkId : ForkId) : RRefContext :=
  { ctx with
    confirmedUsers := aerase forkId ctx.confirmedUsers,
    pendingDeletions := eraseFork forkId ctx.pendingDeletions,
    sentDeleteNotices := ctx.sentDeleteNotices ++ [(owner, rrefId, forkId)] }

/-- Modelled from the spec: the deletion attempt for a User handle going out
of use.  The handle is still held strongly while it sits in pendingUsers_ or
while a child it forked sits unacknowledged in pendingChildren_, so the
deletion notice is withheld in those cases (recorded in pendingDeletions);
only an unheld confirmed handle performs delUser and sends the notice. -/
def attemptUserDelete (ctx : RRefContext) (owner : worker_id_t)
    (rrefId : RRefId) (forkId : ForkId) : RRefContext :=
  if (alookup forkId ctx.pendingUsers).isSome then ctx
  else if (alookup forkId ctx.confirmedUsers).isNone then ctx
  else if (valuesHolding forkId ctx.pendingChildren).isEmpty then
    performDelUser ctx owner rrefId forkId
  else
    { ctx with pendingDeletions := forkId :: eraseFork forkId ctx.pendingDeletions }

/-- Modelled from the spec: prepareChildFork (declared rref_context.h line
143, body in the missing rref_context.cpp) on a User source generates a new
ForkId for the receiving side and registers the source in pending-children,
where it must stay until the new child is acknowledged. -/
def prepareChildFork (ctx : RRefContext) (parent : UserRRef) :
    ForkId × RRefContext :=
  let p := genGloballyUniqueId ctx
  (p.1, addPendingChild p.2 p.1 parent)

/-- Modelled from the spec: delPendingChild (declared rref_context.h line
163, body in the missing rref_context.cpp) releases the keepalive entry once
RREF_CHILD_ACCEPT arrives for the child; if that drops the last strong hold
on a parent whose deletion was withheld, the parent's deletion now runs and
its notice is sent. -/
def delPendingChild (ctx : RRefContext) (childForkId : ForkId) : RRefContext :=
  match alookup childForkId ctx.pendingChildren with
  | none => ctx
  | some parent =>
    let ctx1 := { ctx with pendingChildren := aerase childForkId ctx.pendingChildren }
    if (valuesHolding parent.forkId ctx1.pendingChildren).isEmpty
        && decide (parent.forkId ∈ ctx1.pendingDeletions) then
      performDelUser ctx1 parent.ownerId parent.rrefId parent.forkId
    else ctx1

/-- Modelled from the spec: recordThreadLocalPendingRRefs (declared
rref_context.h line 182, body in the missing rref_context.cpp) opens a fresh
thread-local recording window. -/
def recordThreadLocalPendingRRefs (ctx : RRefContext) : RRefContext :=
  { ctx with recording := true, userTable := [] }

/-- Modelled from the spec: waitForThreadLocalPendingRRefs (declared
rref_context.h line 193, body in the missing rref_context.cpp) closes the
window and drains the scoped list, returning the barrier over the drained
references; the barrier future is completed exactly when every drained
reference's confirmation future has completed. -/
def waitForThreadLocalPendingRRefs (ctx : RRefContext) :
    List ForkId × RRefContext :=
  (ctx.userTable, { ctx with userTable := [], recording := false })

/-- Whether the barrier future returned by waitForThreadLocalPendingRRefs is
completed: every reference it drained has had its confirmation future
completed.  An empty barrier is completed immediately. -/
def barrierCompleted (ctx : RRefContext) (b : List ForkId) : Bool :=
  b.all (fun f => decide (f ∈ ctx.completedUserFutures))

/-- Modelled from the spec: delAllUsers (declared rref_context.h line 204,
body in the missing rref_context.cpp) broadcasts deletion for every
confirmed and pending User reference still registered and drains the user
tables; the owner registry and the fork sets are not touched. -/
def delAllUsers (ctx : RRefContext) : RRefContext :=
  { ctx with
    sentDeleteNotices := ctx.sentDeleteNotices
      ++ ctx.confirmedUsers.map (fun p => (p.2.ownerId, p.2.rrefId, p.2.forkId))
      ++ ctx.pendingUsers.map (fun p => (p.2.rref.ownerId, p.2.rref.rrefId, p.2.rref.forkId)),
    pendingUsers := [],
    confirmedUsers := [],
    pendingChildren := [] }

/-- The Owner references that remain registered with a non-empty fork set:
the leaks reported at shutdown. -/
def leakedOwners (ctx : RRefContext) : List (RRefId × OwnerRRef) :=
  ctx.owners.filter (fun p => !(forksOf ctx p.1).isEmpty)

/-- Modelled from the spec: checkRRefLeaks (declared rref_context.h line 234,
body in the missing rref_context.cpp) fails with RRefLeakDetected if any
Owner reference remains registered with a non-empty fork set, unless leaks
are explicitly ignored, in which case it only reports. -/
def checkRRefLeaks (ctx : RRefContext) (ignoreRRefLeak : Bool) :
    Except RRefError Unit :=
  if (leakedOwners ctx).isEmpty then Except.ok ()
  else if ignoreRRefLeak then Except.ok ()
  else Except.error RRefError.RRefLeakDetected

/-- The registered Owner references that still hold a live payload, returned
by destroyInstance for release outside the context's lock. -/
def livePayloadOwners (ctx : RRefContext) : List OwnerRRef :=
  (ctx.owners.filter (fun p => p.2.hasValue)).map (fun p => p.2)

/-- destroyInstance (declared rref_context.h lines 41-42 with its default
argument ignoreRRefLeak = true taken from the source): performs the
delAllUsers drain, then checkRRefLeaks, and on success returns the Owner
references that still hold a live payload together with the cleared
context.  The drain and leak check bodies are modelled from the spec. -/
def destroyInstance (ctx : RRefContext) (ignoreRRefLeak : Bool := true) :
    Except RRefError (List OwnerRRef × RRefContext) :=
  let ctx1 := delAllUsers ctx
  match checkRRefLeaks ctx1 ignoreRRefLeak with
  | Except.error e => Except.error e
  | Except.ok _ =>
    Except.ok (livePayloadOwners ctx1,
      { ctx1 with owners := [], forks := [], pendingOwners := [] })

/-- The fork-registry operations of spec section 4.3, all acting on a single
RRefId; a failing addForkOfOwner raises DuplicateFork and leaves the tables
unchanged. -/
inductive ForkOp where
  | add (f : ForkId)
  | addIfNotPresent (f : ForkId)
  | del (f : ForkId)
deriving DecidableEq

/-- Apply one fork-registry operation on rrefId r; a raised error leaves the
tables unchanged. -/
def applyForkOp (r : RRefId) (ctx : RRefContext) : ForkOp → RRefContext
  | ForkOp.add f =>
    match addForkOfOwner ctx r f with
    | Except.ok ctx' => ctx'
    | Except.error _ => ctx
  | ForkOp.addIfNotPresent f => addForkOfOwnerIfNotPresent ctx r f
  | ForkOp.del f => (delForkOfOwner ctx r f).2

/-- Apply a sequence of fork-registry operations on rrefId r. -/
def applyForkOps (r : RRefId) (ctx : RRefContext) (ops : List ForkOp) :
    RRefContext :=
  ops.foldl (applyForkOp r) ctx

/-- The no-premature-free invariant for one RRefId: the Owner is registered
whenever its fork set is non-empty, and a registered Owner whose
materialization is no longer pending has a non-empty fork set. -/
def forkInvariant (ctx : RRefContext) (r : RRefId) : Bool :=
  (decide (forksOf ctx r = []) || ownerRegistered ctx r)
  && (!(ownerRegistered ctx r) || ownerPendingMaterialization ctx r
      || !(decide (forksOf ctx r = [])))

/-- Guard on a fork-operation sequence: every fork-add is performed while the
Owner is registered (no fork is registered for an id whose Owner is absent). -/
def addsOnlyWhileOwnerRegistered (r : RRefId) :
    RRefContext → List ForkOp → Bool
  | _, [] => true
  | ctx, op :: rest =>
    (match op with
     | ForkOp.add _ => ownerRegistered ctx r
     | ForkOp.addIfNotPresent _ => ownerRegistered ctx r
     | ForkOp.del _ => true)
    && addsOnlyWhileOwnerRegistered r (applyForkOp r ctx op) rest

/-- The User-lifecycle operations of spec section 4.4: local creation,
owner acknowledgement, deletion of an out-of-use handle, and the
error/shutdown drain. -/
inductive UserOp where
  | create (ownerId : worker_id_t) (ty : TypePtr)
  | confirm (f : ForkId)
  | del (owner : worker_id_t) (rrefId : RRefId) (f : ForkId)
  | shutdown
deriving DecidableEq

/-- Apply one User-lifecycle operation. -/
def applyUserOp (ctx : RRefContext) : UserOp → RRefContext
  | UserOp.create ownerId ty => (createUserRRef ctx ownerId ty).2
  | UserOp.confirm f => delPendingUser ctx f
  | UserOp.del o r f => attemptUserDelete ctx o r f
  | UserOp.shutdown => delAllUsers ctx

/-- Run a User-lifecycle trace from a freshly constructed context. -/
def runUserOps (wid : worker_id_t) (ops : List UserOp) : RRefContext :=
  ops.foldl applyUserOp (emptyContext wid)

/-- Membership of a ForkId in pendingUsers_. -/
def inPendingUsers (ctx : RRefContext) (f : ForkId) : Bool :=
  (alookup f ctx.pendingUsers).isSome

/-- Membership of a ForkId in confirmedUsers_. -/
def inConfirmedUsers (ctx : RRefContext) (f : ForkId) : Bool :=
  (alookup f ctx.confirmedUsers).isSome

/-- The lifecycle states of a ForkId: Pending, Confirmed, or Deleted
(absent). -/
inductive UserStatus where
  | absent
  | pending
  | confirmed
deriving DecidableEq

/-- The lifecycle state a ForkId is in. -/
def userStatus (ctx : RRefContext) (f : ForkId) : UserStatus :=
  if inPendingUsers ctx f then UserStatus.pending
  else if inConfirmedUsers ctx f then UserStatus.confirmed
  else UserStatus.absent

/-- The transitions the per-ForkId state machine permits for one operation:
stay put, Absent to Pending on creation, Pending to Confirmed on
acknowledgement, Confirmed to Deleted on deletion or shutdown, and Pending
to Deleted only on the error/shutdown path. -/
def stepAllowed (op : UserOp) (s s' : UserStatus) : Bool :=
  if s = s' then true
  else
    match s, s', op with
    | UserStatus.absent, UserStatus.pending, UserOp.create _ _ => true
    | UserStatus.pending, UserStatus.confirmed, UserOp.confirm _ => true
    | UserStatus.confirmed, UserStatus.absent, UserOp.del _ _ _ => true
    | UserStatus.confirmed, UserStatus.absent, UserOp.shutdown => true
    | UserStatus.pending, UserStatus.absent, UserOp.shutdown => true
    | _, _, _ => false

/-- Locally generated ForkIds present in the user tables stay below the id
counter; this is what makes a freshly generated ForkId new. -/
def userKeysBounded (ctx : RRefContext) : Bool :=
  ctx.pendingUsers.all
    (fun p => decide (p.1.createdOn = ctx.workerId → p.1.localId < ctx.nextLocalId))
  && ctx.confirmedUsers.all
    (fun p => decide (p.1.createdOn = ctx.workerId → p.1.localId < ctx.nextLocalId))

/-- No ForkId sits in pendingUsers_ and confirmedUsers_ at the same time. -/
def usersExclusive (ctx : RRefContext) : Bool :=
  ctx.pendingUsers.all (fun p => !(inConfirmedUsers ctx p.1))

/-- The inductive invariant of the User-lifecycle traces. -/
def userStateInvariant (ctx : RRefContext) : Bool :=
  usersExclusive ctx && userKeysBounded ctx

/-- The operations relevant to the pending-child keepalive: forking a User
to a third worker, the child's acceptance, a deletion attempt, and an
owner acknowledgement. -/
inductive ChildOp where
  | fork (parent : UserRRef)
  | childAccept (childForkId : ForkId)
  | tryDel (owner : worker_id_t) (rrefId : RRefId) (f : ForkId)
  | confirm (f : ForkId)
deriving DecidableEq

/-- Apply one keepalive-relevant operation. -/
def applyChildOp (ctx : RRefContext) : ChildOp → RRefContext
  | ChildOp.fork parent => (prepareChildFork ctx parent).2
  | ChildOp.childAccept c => delPendingChild ctx c
  | ChildOp.tryDel o r f => attemptUserDelete ctx o r f
  | ChildOp.confirm f => delPendingUser ctx f

/-- Create n User references in a row, returning their ForkIds in creation
order. -/
def createUsersN (ctx : RRefContext) (ownerId : worker_id_t) (ty : TypePtr) :
    Nat → List ForkId × RRefContext
  | 0 => ([], ctx)
  | Nat.succ n =>
    let p := createUserRRef ctx ownerId ty
    let q := createUsersN p.2 ownerId ty n
    (p.1.forkId :: q.1, q.2)

/-- Process owner acknowledgements for a list of ForkIds in the given
order. -/
def confirmAll (ctx : RRefContext) (l : List ForkId) : RRefContext :=
  l.foldl delPendingUser ctx

/-- A context holding one materialized Owner (RRefId (0,0)) with the single
registered fork (1,0). -/
def ctxOwnerWithFork : RRefContext :=
  addForkOfOwnerIfNotPresent
    (setOwnerValue (createOwnerRRef (emptyContext 0) 0).2 ⟨0, 0⟩) ⟨0, 0⟩ ⟨1, 0⟩

/-- The fork-operation sequence refuting the unguarded form of the
no-premature-free claim: delete the only fork, then register a new one. -/
def opsAddAfterDelete : List ForkOp :=
  [ForkOp.del ⟨1, 0⟩, ForkOp.addIfNotPresent ⟨2, 0⟩]

/-- A confirmed User handle of a remote owner, used as the parent of a
forked child. -/
def parentUserW : UserRRef :=
  { ownerId := 1, rrefId := ⟨1, 5⟩, forkId := ⟨0, 1⟩, type := 0,
    confirmedByOwner := true }

/-- A context in which parentUserW is confirmed and held in
pendingChildren_ by one unacknowledged child fork (0,2). -/
def ctxParentHeld : RRefContext :=
  { emptyContext 0 with
    confirmedUsers := [(⟨0, 1⟩, parentUserW)],
    pendingChildren := [(⟨0, 2⟩, parentUserW)] }

/-- A PendingUserState whose future has not yet completed. -/
def pendingStateW : PendingUserState :=
  { rref := { ownerId := 1, rrefId := ⟨1, 5⟩, forkId := ⟨0, 1⟩, type := 0,
              confirmedByOwner := false },
    futureCompleted := false }

theorem alookup_aerase_self {α β : Type} [DecidableEq α] (k : α)
    (l : List (α × β)) : alookup k (aerase k l) = none := by
  induction l with
  | nil => rfl
  | cons p rest ih =>
    by_cases h : k = p.1
    · rw [aerase, if_pos h]; exact ih
    · rw [aerase, if_neg h, alookup, if_neg h]; exact ih

theorem alookup_aerase_ne {α β : Type} [DecidableEq α] {k k' : α}
    (h : k' ≠ k) (l : List (α × β)) :
    alookup k' (aerase k l) = alookup k' l := by
  induction l with
  | nil => rfl
  | cons p rest ih =>
    by_cases hk : k = p.1
    · have hk' : k' ≠ p.1 := by rw [← hk]; exact h
      rw [aerase, if_pos hk, alookup, if_neg hk']; exact ih
    · rw [aerase, if_neg hk, alookup, alookup]
      by_cases hq : k' = p.1
      · rw [if_pos hq, if_pos hq]
      · rw [if_neg hq, if_neg hq]; exact ih

theorem alookup_aset_self {α β : Type} [DecidableEq α] (k : α) (v : β)
    (l : List (α × β)) : alookup k (aset k v l) = some v := by
  simp [aset, alookup]

theorem alookup_aset_ne {α β : Type} [DecidableEq α] {k k' : α} (h : k' ≠ k)
    (v : β) (l : List (α × β)) : alookup k' (aset k v l) = alookup k' l := by
  simp [aset, alookup, h, alookup_aerase_ne h l]

theorem mem_aerase {α β : Type} [DecidableEq α] {k : α} {p : α × β} :
    ∀ {l : List (α × β)}, p ∈ aerase k l ↔ p ∈ l ∧ p.1 ≠ k := by
  intro l
  induction l with
  | nil => simp [aerase]
  | cons q rest ih =>
    by_cases h : k = q.1
    · constructor
      · intro hm
        rw [aerase, if_pos h] at hm
        rcases ih.mp hm with ⟨h1, h2⟩
        exact ⟨List.mem_cons_of_mem q h1, h2⟩
      · intro ⟨hm, hne⟩
        rw [aerase, if_pos h]
        rcases List.mem_cons.mp hm with rfl | h1
        · exact absurd h.symm hne
        · exact ih.mpr ⟨h1, hne⟩
    · constructor
      · intro hm
        rw [aerase, if_neg h] at hm
        rcases List.mem_cons.mp hm with rfl | h1
        · exact ⟨List.mem_cons_self p rest, fun he => h (he ▸ rfl)⟩
        · rcases ih.mp h1 with ⟨h2, h3⟩
          exact ⟨List.mem_cons_of_mem q h2, h3⟩
      · intro ⟨hm, hne⟩
        rw [aerase, if_neg h]
        rcases List.mem_cons.mp hm with rfl | h1
        · exact List.mem_cons_self p _
        · exact List.mem_cons_of_mem q (ih.mpr ⟨h1, hne⟩)

theorem alookup_mem {α β : Type} [DecidableEq α] {k : α} {v : β} :
    ∀ {l : List (α × β)}, alookup k l = some v → (k, v) ∈ l := by
  intro l
  induction l with
  | nil => intro h; exact absurd h (by simp [alookup])
  | cons p rest ih =>
    intro h
    rw [alookup] at h
    by_cases hk : k = p.1
    · rw [if_pos hk] at h
      have : p = (k, v) := by
        cases p; cases hk; cases h; rfl
      rw [← this]; exact List.mem_cons_self p rest
    · rw [if_neg hk] at h
      exact List.mem_cons_of_mem p (ih h)

theorem mem_eraseFork {f g : ForkId} :
    ∀ {l : List ForkId}, g ∈ eraseFork f l ↔ g ∈ l ∧ g ≠ f := by
  intro l
  induction l with
  | nil => simp [eraseFork]
  | cons x rest ih =>
    by_cases h : x = f
    · rw [eraseFork, if_pos h, ih]
      constructor
      · intro ⟨h1, h2⟩; exact ⟨List.mem_cons_of_mem x h1, h2⟩
      · intro ⟨h1, h2⟩
        rcases List.mem_cons.mp h1 with rfl | h3
        · exact absurd h h2
        · exact ⟨h3, h2⟩
    · rw [eraseFork, if_neg h]
      constructor
      · intro hm
        rcases List.mem_cons.mp hm with rfl | h1
        · exact ⟨List.mem_cons_self g rest, h⟩
        · rcases ih.mp h1 with ⟨h2, h3⟩
          exact ⟨List.mem_cons_of_mem x h2, h3⟩
      · intro ⟨hm, hne⟩
        rcases List.mem_cons.mp hm with rfl | h1
        · exact List.mem_cons_self g _
        · exact List.mem_cons_of_mem x (ih.mpr ⟨h1, hne⟩)

theorem eraseFork_nonempty_source {f : ForkId} {l : List ForkId}
    (h : eraseFork f l ≠ []) : l ≠ [] := by
  intro he
  rw [he] at h
  exact h rfl

theorem forksOf_aset_self (ctx : RRefContext) (r : RRefId) (s : List ForkId) :
    forksOf { ctx with forks := aset r s ctx.forks } r = s := by
  simp [forksOf, alookup_aset_self]

theorem addIfNP_mem (ctx : RRefContext) (r : RRefId) (f : ForkId)
    (h : f ∈ forksOf ctx r) : addForkOfOwnerIfNotPresent ctx r f = ctx := by
  rw [addForkOfOwnerIfNotPresent, if_pos h]

theorem addIfNP_not_mem (ctx : RRefContext) (r : RRefId) (f : ForkId)
    (h : f ∉ forksOf ctx r) :
    addForkOfOwnerIfNotPresent ctx r f
      = { ctx with forks := aset r (f :: forksOf ctx r) ctx.forks } := by
  rw [addForkOfOwnerIfNotPresent, if_neg h]

/-- C10: inside PendingUserState::confirm the wrapped User reference is
marked confirmed strictly before the completion future is marked completed:
at every point of the action sequence at which the future is observed
completed, the reference is already confirmed, and running confirm to the
end leaves the reference confirmed and the future completed. -/
theorem c10_confirm_marks_before_future (s : PendingUserState)
    (h : s.futureCompleted = false) :
    (∀ k : Nat,
      (PendingUserState.runActions s
        (PendingUserState.confirmActions.take k)).futureCompleted = true →
      (PendingUserState.runActions s
        (PendingUserState.confirmActions.take k)).rref.confirmedByOwner = true)
    ∧ (PendingUserState.confirm s).rref.confirmedByOwner = true
    ∧ (PendingUserState.confirm s).futureCompleted = true := by
  refine ⟨?_, ?_, ?_⟩
  · intro k hk
    match k with
    | 0 =>
      simp only [List.take_zero, PendingUserState.runActions, List.foldl] at hk
      rw [h] at hk
      cases hk
    | 1 =>
      simp [PendingUserState.confirmActions, PendingUserState.runActions,
        PendingUserState.applyAction]
    | (n + 2) =>
      simp [PendingUserState.confirmActions, PendingUserState.runActions,
        PendingUserState.applyAction]
  · simp [PendingUserState.confirm, PendingUserState.confirmActions,
      PendingUserState.runActions, PendingUserState.applyAction]
  · simp [PendingUserState.confirm, PendingUserState.confirmActions,
      PendingUserState.runActions, PendingUserState.applyAction]

theorem c10_confirm_marks_before_future_witness :
    (PendingUserState.runActions pendingStateW
      (PendingUserState.confirmActions.take 2)).rref.confirmedByOwner = true
    ∧ (PendingUserState.confirm pendingStateW).futureCompleted = true :=
  ⟨(c10_confirm_marks_before_future pendingStateW rfl).1 2 (by decide),
   (c10_confirm_marks_before_future pendingStateW rfl).2.2⟩

/-- C8: addForkOfOwnerIfNotPresent is idempotent, leaving the context after
a second call with the same pair identical to the context after one call,
while addForkOfOwner inserts on the first call and fails with DuplicateFork
on a second call with the same pair. -/
theorem c8_fork_registration_idempotent_vs_strict (ctx : RRefContext)
    (r : RRefId) (f : ForkId) :
    addForkOfOwnerIfNotPresent (addForkOfOwnerIfNotPresent ctx r f) r f
      = addForkOfOwnerIfNotPresent ctx r f
    ∧ (f ∉ forksOf ctx r →
        ∃ ctx1, addForkOfOwner ctx r f = Except.ok ctx1
          ∧ f ∈ forksOf ctx1 r
          ∧ forksOf ctx1 r = forksOf (addForkOfOwnerIfNotPresent ctx r f) r
          ∧ addForkOfOwner ctx1 r f = Except.error RRefError.DuplicateFork) := by
  constructor
  · by_cases h : f ∈ forksOf ctx r
    · rw [addIfNP_mem ctx r f h]
      exact addIfNP_mem ctx r f h
    · rw [addIfNP_not_mem ctx r f h]
      refine addIfNP_mem _ r f ?_
      rw [forksOf_aset_self]
      exact List.mem_cons_self f _
  · intro h
    refine ⟨{ ctx with forks := aset r (f :: forksOf ctx r) ctx.forks },
      ?_, ?_, ?_, ?_⟩
    · rw [addForkOfOwner, if_neg h]
    · rw [forksOf_aset_self]
      exact List.mem_cons_self f _
    · rw [forksOf_aset_self, addIfNP_not_mem ctx r f h, forksOf_aset_self]
    · have hm : f ∈ forksOf { ctx with forks := aset r (f :: forksOf ctx r) ctx.forks } r := by
        rw [forksOf_aset_self]
        exact List.mem_cons_self f _
      rw [addForkOfOwner, if_pos hm]

theorem c8_fork_registration_idempotent_vs_strict_witness :
    ∃ ctx1, addForkOfOwner (emptyContext 0) ⟨0, 0⟩ ⟨1, 0⟩ = Except.ok ctx1
      ∧ (⟨1, 0⟩ : ForkId) ∈ forksOf ctx1 ⟨0, 0⟩
      ∧ forksOf ctx1 ⟨0, 0⟩
          = forksOf (addForkOfOwnerIfNotPresent (emptyContext 0) ⟨0, 0⟩ ⟨1, 0⟩) ⟨0, 0⟩
      ∧ addForkOfOwner ctx1 ⟨0, 0⟩ ⟨1, 0⟩ = Except.error RRefError.DuplicateFork :=
  (c8_fork_registration_idempotent_vs_strict (emptyContext 0) ⟨0, 0⟩ ⟨1, 0⟩).2
    (by decide)

/-- C3: delForkOfOwner removes forkId from the fork set of rrefId; if the
fork set thereby becomes empty and the Owner's materialization is not
pending, the Owner is removed from the registry and returned to the caller;
if the fork set stays non-empty, or materialization is pending, or no Owner
is registered, nothing is returned and the Owner registration is
untouched. -/
theorem c3_delForkOfOwner_behaviour (ctx : RRefContext) (r : RRefId)
    (f : ForkId) (o : OwnerRRef) :
    forksOf (delForkOfOwner ctx r f).2 r = eraseFork f (forksOf ctx r)
    ∧ (eraseFork f (forksOf ctx r) = [] → alookup r ctx.owners = some o →
        o.hasValue = true →
        (delForkOfOwner ctx r f).1 = some o
        ∧ ownerRegistered (delForkOfOwner ctx r f).2 r = false)
    ∧ (eraseFork f (forksOf ctx r) ≠ [] →
        (delForkOfOwner ctx r f).1 = none
        ∧ alookup r (delForkOfOwner ctx r f).2.owners = alookup r ctx.owners)
    ∧ (ownerPendingMaterialization ctx r = true →
        (delForkOfOwner ctx r f).1 = none
        ∧ alookup r (delForkOfOwner ctx r f).2.owners = alookup r ctx.owners)
    ∧ (alookup r ctx.owners = none → (delForkOfOwner ctx r f).1 = none) := by
  by_cases hE : eraseFork f (forksOf ctx r) = []
  · have hE' : (eraseFork f (forksOf ctx r)).isEmpty = true := by
      rw [hE]; rfl
    cases ho : alookup r ctx.owners with
    | some o' =>
      cases hv : o'.hasValue with
      | true =>
        have hd : delForkOfOwner ctx r f
            = (some o', { ctx with forks := aerase r ctx.forks,
                                   owners := aerase r ctx.owners }) := by
          simp only [delForkOfOwner, hE', if_true, ho, hv, if_pos]
        refine ⟨?_, ?_, ?_, ?_, ?_⟩
        · rw [hd, hE]
          simp [forksOf, alookup_aerase_self]
        · intro _ ho2 _
          injection ho2 with h2
          subst h2
          rw [hd]
          refine ⟨rfl, ?_⟩
          simp [ownerRegistered, alookup_aerase_self]
        · intro hne; exact absurd hE hne
        · intro hp
          simp [ownerPendingMaterialization, ho, hv] at hp
        · intro hn; exact Option.noConfusion hn
      | false =>
        have hd : delForkOfOwner ctx r f
            = (none, { ctx with forks := aerase r ctx.forks }) := by
          simp only [delForkOfOwner, hE', if_true, ho, hv]
          rfl
        refine ⟨?_, ?_, ?_, ?_, ?_⟩
        · rw [hd, hE]
          simp [forksOf, alookup_aerase_self]
        · intro _ ho2 hval
          injection ho2 with h2
          subst h2
          rw [hval] at hv
          cases hv
        · intro hne; exact absurd hE hne
        · intro _
          rw [hd]
          exact ⟨rfl, ho⟩
        · intro hn; exact Option.noConfusion hn
    | none =>
      have hd : delForkOfOwner ctx r f
          = (none, { ctx with forks := aerase r ctx.forks }) := by
        simp only [delForkOfOwner, hE', if_true, ho]
      refine ⟨?_, ?_, ?_, ?_, ?_⟩
      · rw [hd, hE]
        simp [forksOf, alookup_aerase_self]
      · intro _ ho2 _
        exact Option.noConfusion ho2
      · intro hne; exact absurd hE hne
      · intro hp
        simp [ownerPendingMaterialization, ho] at hp
      · intro _
        rw [hd]
  · have hE' : (eraseFork f (forksOf ctx r)).isEmpty = false := by
      cases hc : eraseFork f (forksOf ctx r) with
      | nil => exact absurd hc hE
      | cons a l => rfl
    have hd : delForkOfOwner ctx r f
        = (none, { ctx with
            forks := aset r (eraseFork f (forksOf ctx r)) ctx.forks }) := by
      simp only [delForkOfOwner, hE']
      rfl
    refine ⟨?_, ?_, ?_, ?_, ?_⟩
    · rw [hd]
      exact forksOf_aset_self ctx r _
    · intro he; exact absurd he hE
    · intro _
      rw [hd]
      exact ⟨rfl, rfl⟩
    · intro _
      rw [hd]
      exact ⟨rfl, rfl⟩
    · intro _
      rw [hd]

theorem c3_delForkOfOwner_behaviour_witness :
    (delForkOfOwner ctxOwnerWithFork ⟨0, 0⟩ ⟨1, 0⟩).1
        = some { rrefId := ⟨0, 0⟩, type := 0, hasValue := true }
    ∧ ownerRegistered (delForkOfOwner ctxOwnerWithFork ⟨0, 0⟩ ⟨1, 0⟩).2 ⟨0, 0⟩
        = false :=
  (c3_delForkOfOwner_behaviour ctxOwnerWithFork ⟨0, 0⟩ ⟨1, 0⟩
      { rrefId := ⟨0, 0⟩, type := 0, hasValue := true }).2.1
    (by decide) (by decide) rfl

/-- C9: the ignoreRRefLeak parameter of destroyInstance defaults to true
(rref_context.h lines 41-42), so calling destroyInstance with no argument is
calling it with true, and such a call never fails with any error; the
RRefLeakDetected failure is reachable only by explicitly passing false. -/
theorem c9_destroy_default_ignores_leaks :
    (∀ ctx : RRefContext, destroyInstance ctx = destroyInstance ctx true)
    ∧ (∀ (ctx : RRefContext) (e : RRefError),
        destroyInstance ctx ≠ Except.error e)
    ∧ (∃ ctx : RRefContext,
        destroyInstance ctx false = Except.error RRefError.RRefLeakDetected) := by
  refine ⟨fun ctx => rfl, ?_, ?_⟩
  · intro ctx e
    by_cases h : (leakedOwners (delAllUsers ctx)).isEmpty
    · simp only [destroyInstance, checkRRefLeaks, h, if_true]
      exact fun hc => Except.noConfusion hc
    · simp only [destroyInstance, checkRRefLeaks, h, if_false,
        Bool.false_eq_true, if_true]
      exact fun hc => Except.noConfusion hc
  · exact ⟨ctxOwnerWithFork, rfl⟩

theorem delFork_eq_nonempty (ctx : RRefContext) (r : RRefId) (f : ForkId)
    (hE : eraseFork f (forksOf ctx r) ≠ []) :
    delForkOfOwner ctx r f
      = (none, { ctx with forks := aset r (eraseFork f (forksOf ctx r)) ctx.forks }) := by
  have hE' : (eraseFork f (forksOf ctx r)).isEmpty = false := by
    cases hc : eraseFork f (forksOf ctx r) with
    | nil => exact absurd hc hE
    | cons a l => rfl
  simp only [delForkOfOwner, hE']
  rfl

theorem delFork_eq_empty_live (ctx : RRefContext) (r : RRefId) (f : ForkId)
    (o : OwnerRRef) (hE : eraseFork f (forksOf ctx r) = [])
    (ho : alookup r ctx.owners = some o) (hv : o.hasValue = true) :
    delForkOfOwner ctx r f
      = (some o, { ctx with forks := aerase r ctx.forks,
                            owners := aerase r ctx.owners }) := by
  have hE' : (eraseFork f (forksOf ctx r)).isEmpty = true := by rw [hE]; rfl
  simp only [delForkOfOwner, hE', if_true, ho, hv, if_pos]

theorem delFork_eq_empty_pending (ctx : RRefContext) (r : RRefId) (f : ForkId)
    (o : OwnerRRef) (hE : eraseFork f (forksOf ctx r) = [])
    (ho : alookup r ctx.owners = some o) (hv : o.hasValue = false) :
    delForkOfOwner ctx r f
      = (none, { ctx with forks := aerase r ctx.forks }) := by
  have hE' : (eraseFork f (forksOf ctx r)).isEmpty = true := by rw [hE]; rfl
  simp only [delForkOfOwner, hE', if_true, ho, hv]
  rfl

theorem delFork_eq_empty_noowner (ctx : RRefContext) (r : RRefId) (f : ForkId)
    (hE : eraseFork f (forksOf ctx r) = [])
    (ho : alookup r ctx.owners = none) :
    delForkOfOwner ctx r f
      = (none, { ctx with forks := aerase r ctx.forks }) := by
  have hE' : (eraseFork f (forksOf ctx r)).isEmpty = true := by rw [hE]; rfl
  simp only [delForkOfOwner, hE', if_true, ho]

theorem forkInvariant_iff (ctx : RRefContext) (r : RRefId) :
    forkInvariant ctx r = true ↔
      ((forksOf ctx r = [] ∨ ownerRegistered ctx r = true)
       ∧ (ownerRegistered ctx r = false
          ∨ ownerPendingMaterialization ctx r = true
          ∨ ¬(forksOf ctx r = []))) := by
  rw [forkInvariant]
  simp [Bool.and_eq_true, Bool.or_eq_true, decide_eq_true_iff,
    Bool.not_eq_true', or_assoc]

theorem forkInvariant_preserved (ctx : RRefContext) (r : RRefId) (op : ForkOp)
    (h : forkInvariant ctx r = true)
    (hguard : (match op with
       | ForkOp.add _ => ownerRegistered ctx r
       | ForkOp.addIfNotPresent _ => ownerRegistered ctx r
       | ForkOp.del _ => true) = true) :
    forkInvariant (applyForkOp r ctx op) r = true := by
  cases op with
  | add f =>
    by_cases hf : f ∈ forksOf ctx r
    · have happ : applyForkOp r ctx (ForkOp.add f) = ctx := by
        simp [applyForkOp, addForkOfOwner, hf]
      rw [happ]
      exact h
    · have happ : applyForkOp r ctx (ForkOp.add f)
          = { ctx with forks := aset r (f :: forksOf ctx r) ctx.forks } := by
        simp [applyForkOp, addForkOfOwner, hf]
      rw [happ, forkInvariant_iff]
      constructor
      · exact Or.inr hguard
      · right
        rw [forksOf_aset_self]
        exact Or.inr (List.cons_ne_nil f _)
  | addIfNotPresent f =>
    by_cases hf : f ∈ forksOf ctx r
    · have happ : applyForkOp r ctx (ForkOp.addIfNotPresent f) = ctx :=
        addIfNP_mem ctx r f hf
      rw [happ]
      exact h
    · have happ : applyForkOp r ctx (ForkOp.addIfNotPresent f)
          = { ctx with forks := aset r (f :: forksOf ctx r) ctx.forks } :=
        addIfNP_not_mem ctx r f hf
      rw [happ, forkInvariant_iff]
      constructor
      · exact Or.inr hguard
      · right
        rw [forksOf_aset_self]
        exact Or.inr (List.cons_ne_nil f _)
  | del f =>
    have happ : applyForkOp r ctx (ForkOp.del f) = (delForkOfOwner ctx r f).2 := rfl
    by_cases hE : eraseFork f (forksOf ctx r) = []
    · cases ho : alookup r ctx.owners with
      | some o =>
        cases hv : o.hasValue with
        | true =>
          rw [happ, delFork_eq_empty_live ctx r f o hE ho hv, forkInvariant_iff]
          constructor
          · left
            simp [forksOf, alookup_aerase_self]
          · left
            simp [ownerRegistered, alookup_aerase_self]
        | false =>
          rw [happ, delFork_eq_empty_pending ctx r f o hE ho hv, forkInvariant_iff]
          constructor
          · left
            simp [forksOf, alookup_aerase_self]
          · right
            left
            simp [ownerPendingMaterialization, ho, hv]
      | none =>
        rw [happ, delFork_eq_empty_noowner ctx r f hE ho, forkInvariant_iff]
        constructor
        · left
          simp [forksOf, alookup_aerase_self]
        · left
          simp [ownerRegistered, ho]
    · rw [happ, delFork_eq_nonempty ctx r f hE, forkInvariant_iff]
      have hfk : forksOf { ctx with
          forks := aset r (eraseFork f (forksOf ctx r)) ctx.forks } r
          = eraseFork f (forksOf ctx r) := forksOf_aset_self ctx r _
      constructor
      · right
        have hsrc : forksOf ctx r ≠ [] := by
          intro hc
          rw [hc] at hE
          exact hE rfl
        rcases (forkInvariant_iff ctx r).mp h with ⟨h1, _⟩
        rcases h1 with h1 | h1
        · exact absurd h1 hsrc
        · exact h1
      · right
        right
        rw [hfk]
        exact hE

/-- C1 (amended): over any sequence of fork-add and fork-delete operations
on a single RRefId in which every fork-add happens while the Owner is still
registered, the no-premature-free invariant holds at every intermediate
state: the Owner is registered whenever the fork set is non-empty, and a
registered Owner with an empty fork set only occurs while materialization is
pending, so the step that removes the last fork is the step that removes the
Owner. -/
theorem c1_no_premature_free_amended (r : RRefId) (ops : List ForkOp) :
    ∀ ctx : RRefContext,
      forkInvariant ctx r = true →
      addsOnlyWhileOwnerRegistered r ctx ops = true →
      ∀ k : Nat, forkInvariant (applyForkOps r ctx (ops.take k)) r = true := by
  induction ops with
  | nil =>
    intro ctx h _ k
    simp only [List.take_nil, applyForkOps, List.foldl_nil]
    exact h
  | cons op rest ih =>
    intro ctx h hg k
    simp only [addsOnlyWhileOwnerRegistered, Bool.and_eq_true] at hg
    match k with
    | 0 =>
      simp only [List.take_zero, applyForkOps, List.foldl_nil]
      exact h
    | (k' + 1) =>
      simp only [List.take_succ_cons, applyForkOps, List.foldl_cons]
      have hstep := forkInvariant_preserved ctx r op h hg.1
      have := ih (applyForkOp r ctx op) hstep hg.2 k'
      simpa only [applyForkOps] using this

/-- C1 (counterexample to the claim as stated): from a valid state holding a
materialized Owner with one fork, deleting that fork and then registering a
new fork (both legal fork-registry operations on this single RRefId) yields
a state whose fork set is non-empty while the Owner reference is no longer
present in the registry. -/
theorem c1_no_premature_free_counterexample :
    forkInvariant ctxOwnerWithFork ⟨0, 0⟩ = true
    ∧ forkInvariant (applyForkOps ⟨0, 0⟩ ctxOwnerWithFork opsAddAfterDelete)
        ⟨0, 0⟩ = false
    ∧ (forksOf (applyForkOps ⟨0, 0⟩ ctxOwnerWithFork opsAddAfterDelete)
        ⟨0, 0⟩).isEmpty = false
    ∧ ownerRegistered (applyForkOps ⟨0, 0⟩ ctxOwnerWithFork opsAddAfterDelete)
        ⟨0, 0⟩ = false :=
  ⟨by decide, by decide, by decide, by decide⟩

theorem c1_no_premature_free_amended_witness :
    forkInvariant
      (applyForkOps ⟨0, 0⟩ ctxOwnerWithFork ([ForkOp.del ⟨1, 0⟩].take 1))
      ⟨0, 0⟩ = true :=
  c1_no_premature_free_amended ⟨0, 0⟩ [ForkOp.del ⟨1, 0⟩] ctxOwnerWithFork
    (by decide) (by decide) 1

theorem leakedOwners_delAllUsers (ctx : RRefContext) :
    leakedOwners (delAllUsers ctx) = leakedOwners ctx := rfl

theorem livePayloadOwners_delAllUsers (ctx : RRefContext) :
    livePayloadOwners (delAllUsers ctx) = livePayloadOwners ctx := rfl

/-- C5: destroyInstance with ignoreRRefLeak = false fails with
RRefLeakDetected whenever, after the drain, some Owner remains registered
with a non-empty fork set; with the offending fork removed first the same
shutdown completes cleanly; and when leaks are ignored the call never fails
and returns the Owner references that still hold a live payload. -/
theorem c5_leak_detection (ctx : RRefContext) (r : RRefId) (f : ForkId)
    (h1 : (leakedOwners ctx).isEmpty = false)
    (h2 : (leakedOwners (delForkOfOwner ctx r f).2).isEmpty = true) :
    destroyInstance ctx false = Except.error RRefError.RRefLeakDetected
    ∧ (∃ v, destroyInstance (delForkOfOwner ctx r f).2 false = Except.ok v)
    ∧ (∃ ctx2, destroyInstance ctx true
        = Except.ok (livePayloadOwners (delAllUsers ctx), ctx2)) := by
  refine ⟨?_, ?_, ?_⟩
  · have hleak : (leakedOwners (delAllUsers ctx)).isEmpty = false := by
      rw [leakedOwners_delAllUsers]
      exact h1
    have herr : checkRRefLeaks (delAllUsers ctx) false
        = Except.error RRefError.RRefLeakDetected := by
      rw [checkRRefLeaks, if_neg (by rw [hleak]; exact Bool.false_ne_true),
        if_neg Bool.false_ne_true]
    simp only [destroyInstance, herr]
  · have hleak2 : (leakedOwners (delAllUsers (delForkOfOwner ctx r f).2)).isEmpty
        = true := by
      rw [leakedOwners_delAllUsers]
      exact h2
    have hok : checkRRefLeaks (delAllUsers (delForkOfOwner ctx r f).2) false
        = Except.ok () := by
      rw [checkRRefLeaks, if_pos hleak2]
    simp only [destroyInstance, hok]
    exact ⟨_, rfl⟩
  · have hok : checkRRefLeaks (delAllUsers ctx) true = Except.ok () := by
      rw [checkRRefLeaks]
      by_cases hc : (leakedOwners (delAllUsers ctx)).isEmpty = true
      · rw [if_pos hc]
      · rw [if_neg hc, if_pos rfl]
    simp only [destroyInstance, hok]
    exact ⟨_, rfl⟩

theorem c5_leak_detection_witness :
    destroyInstance ctxOwnerWithFork false
        = Except.error RRefError.RRefLeakDetected
    ∧ (∃ v, destroyInstance (delForkOfOwner ctxOwnerWithFork ⟨0, 0⟩ ⟨1, 0⟩).2
        false = Except.ok v) :=
  ⟨(c5_leak_detection ctxOwnerWithFork ⟨0, 0⟩ ⟨1, 0⟩ (by decide) (by decide)).1,
   (c5_leak_detection ctxOwnerWithFork ⟨0, 0⟩ ⟨1, 0⟩ (by decide) (by decide)).2.1⟩

/-- C7: when the Owner is not yet registered, getOwnerRRef creates the single
pending-owner entry and returns its incomplete future; a repeated call
returns the same future and leaves the state unchanged; the future completes
with an Owner of the declared type exactly when getOrCreateOwnerRRef is
called, which also removes the pending-owner entry; and once the Owner is
registered, getOwnerRRef returns an already-completed future wrapping it. -/
theorem c7_pending_owner_resolution (ctx : RRefContext) (r : RRefId)
    (ty : TypePtr)
    (h1 : alookup r ctx.owners = none)
    (h2 : alookup r ctx.pendingOwners = none)
    (h3 : alookup ctx.nextOwnerFutureId ctx.completedOwnerFutures = none) :
    (getOwnerRRef (getOwnerRRef ctx r).2 r).1 = (getOwnerRRef ctx r).1
    ∧ (getOwnerRRef (getOwnerRRef ctx r).2 r).2 = (getOwnerRRef ctx r).2
    ∧ ownerFutureValue (getOwnerRRef ctx r).2 (getOwnerRRef ctx r).1 = none
    ∧ (∃ o ctx2,
        getOrCreateOwnerRRef (getOwnerRRef ctx r).2 r ty = Except.ok (o, ctx2)
        ∧ o.rrefId = r ∧ o.type = ty
        ∧ ownerFutureValue ctx2 (getOwnerRRef ctx r).1 = some o
        ∧ alookup r ctx2.pendingOwners = none
        ∧ ownerFutureValue (getOwnerRRef ctx2 r).2 (getOwnerRRef ctx2 r).1
            = some o) := by
  have hg : getOwnerRRef ctx r
      = (ctx.nextOwnerFutureId,
         { ctx with
           pendingOwners := aset r ctx.nextOwnerFutureId ctx.pendingOwners,
           nextOwnerFutureId := ctx.nextOwnerFutureId + 1 }) := by
    simp only [getOwnerRRef, h1, h2]
  have hg2 : getOwnerRRef (getOwnerRRef ctx r).2 r = getOwnerRRef ctx r := by
    rw [hg]
    simp only [getOwnerRRef, h1, alookup_aset_self]
  refine ⟨by rw [hg2], by rw [hg2], ?_, ?_⟩
  · rw [hg]
    exact h3
  · refine ⟨{ rrefId := r, type := ty, hasValue := false },
      { ctx with
        owners := aset r { rrefId := r, type := ty, hasValue := false } ctx.owners,
        pendingOwners := aerase r (aset r ctx.nextOwnerFutureId ctx.pendingOwners),
        completedOwnerFutures :=
          aset ctx.nextOwnerFutureId { rrefId := r, type := ty, hasValue := false }
            ctx.completedOwnerFutures,
        nextOwnerFutureId := ctx.nextOwnerFutureId + 1 },
      ?_, rfl, rfl, ?_, ?_, ?_⟩
    · rw [hg]
      simp only [getOrCreateOwnerRRef, h1, alookup_aset_self]
    · rw [hg]
      exact alookup_aset_self _ _ _
    · exact alookup_aerase_self r _
    · have hreg : alookup r
          (aset r { rrefId := r, type := ty, hasValue := false } ctx.owners)
          = some { rrefId := r, type := ty, hasValue := false } :=
        alookup_aset_self _ _ _
      simp only [getOwnerRRef, hreg]
      exact alookup_aset_self _ _ _

theorem c7_pending_owner_resolution_witness :
    (getOwnerRRef (getOwnerRRef (emptyContext 0) ⟨1, 1⟩).2 ⟨1, 1⟩).1
        = (getOwnerRRef (emptyContext 0) ⟨1, 1⟩).1
    ∧ ownerFutureValue (getOwnerRRef (emptyContext 0) ⟨1, 1⟩).2
        (getOwnerRRef (emptyContext 0) ⟨1, 1⟩).1 = none :=
  ⟨(c7_pending_owner_resolution (emptyContext 0) ⟨1, 1⟩ 3 rfl rfl rfl).1,
   (c7_pending_owner_resolution (emptyContext 0) ⟨1, 1⟩ 3 rfl rfl rfl).2.2.1⟩

theorem fresh_not_in_pending (ctx : RRefContext)
    (h : userKeysBounded ctx = true) (g : ForkId)
    (hc : g.createdOn = ctx.workerId) (hl : ctx.nextLocalId ≤ g.localId) :
    alookup g ctx.pendingUsers = none := by
  cases hq : alookup g ctx.pendingUsers with
  | none => rfl
  | some v =>
    exfalso
    have hmem := alookup_mem hq
    have hall := List.all_eq_true.mp ((Bool.and_eq_true _ _).mp h).1 _ hmem
    have himp := of_decide_eq_true hall
    exact absurd (himp hc) (Nat.not_lt.mpr hl)

theorem fresh_not_in_confirmed (ctx : RRefContext)
    (h : userKeysBounded ctx = true) (g : ForkId)
    (hc : g.createdOn = ctx.workerId) (hl : ctx.nextLocalId ≤ g.localId) :
    alookup g ctx.confirmedUsers = none := by
  cases hq : alookup g ctx.confirmedUsers with
  | none => rfl
  | some v =>
    exfalso
    have hmem := alookup_mem hq
    have hall := List.all_eq_true.mp ((Bool.and_eq_true _ _).mp h).2 _ hmem
    have himp := of_decide_eq_true hall
    exact absurd (himp hc) (Nat.not_lt.mpr hl)

theorem exclusive_not_both (ctx : RRefContext)
    (h : usersExclusive ctx = true) (f : ForkId) :
    (inPendingUsers ctx f && inConfirmedUsers ctx f) = false := by
  cases hp : alookup f ctx.pendingUsers with
  | none => simp [inPendingUsers, hp]
  | some v =>
    have hmem := alookup_mem hp
    have hall := List.all_eq_true.mp h _ hmem
    simp only [inPendingUsers, hp, Option.isSome_some, Bool.true_and]
    simpa using hall

theorem userStatus_congr (ctx ctx' : RRefContext) (f : ForkId)
    (hp : alookup f ctx'.pendingUsers = alookup f ctx.pendingUsers)
    (hc : alookup f ctx'.confirmedUsers = alookup f ctx.confirmedUsers) :
    userStatus ctx' f = userStatus ctx f := by
  simp [userStatus, inPendingUsers, inConfirmedUsers, hp, hc]

theorem stepAllowed_refl (op : UserOp) (s : UserStatus) :
    stepAllowed op s s = true := by
  simp [stepAllowed]

theorem userStep_allowed (ctx : RRefContext) (op : UserOp) (f : ForkId)
    (h : userStateInvariant ctx = true) :
    stepAllowed op (userStatus ctx f) (userStatus (applyUserOp ctx op) f)
      = true := by
  have hex : usersExclusive ctx = true := ((Bool.and_eq_true _ _).mp h).1
  have hbnd : userKeysBounded ctx = true := ((Bool.and_eq_true _ _).mp h).2
  cases op with
  | create ownerId ty =>
    by_cases hf : f = (⟨ctx.workerId, ctx.nextLocalId + 1⟩ : ForkId)
    · subst hf
      have hp0 := fresh_not_in_pending ctx hbnd
        ⟨ctx.workerId, ctx.nextLocalId + 1⟩ rfl (Nat.le_succ _)
      have hc0 := fresh_not_in_confirmed ctx hbnd
        ⟨ctx.workerId, ctx.nextLocalId + 1⟩ rfl (Nat.le_succ _)
      have hs1 : userStatus ctx ⟨ctx.workerId, ctx.nextLocalId + 1⟩
          = UserStatus.absent := by
        simp [userStatus, inPendingUsers, inConfirmedUsers, hp0, hc0]
      have hs2 : userStatus (applyUserOp ctx (UserOp.create ownerId ty))
          ⟨ctx.workerId, ctx.nextLocalId + 1⟩ = UserStatus.pending := by
        simp [applyUserOp, createUserRRef, genGloballyUniqueId, addPendingUser,
          userStatus, inPendingUsers, alookup_aset_self]
      rw [hs1, hs2]
      rfl
    · have hp : alookup f (applyUserOp ctx (UserOp.create ownerId ty)).pendingUsers
          = alookup f ctx.pendingUsers := by
        simp [applyUserOp, createUserRRef, genGloballyUniqueId, addPendingUser,
          alookup_aset_ne hf]
      have hc : alookup f (applyUserOp ctx (UserOp.create ownerId ty)).confirmedUsers
          = alookup f ctx.confirmedUsers := rfl
      rw [userStatus_congr ctx _ f hp hc]
      exact stepAllowed_refl _ _
  | confirm f' =>
    cases hl : alookup f' ctx.pendingUsers with
    | none =>
      have happ : applyUserOp ctx (UserOp.confirm f') = ctx := by
        simp [applyUserOp, delPendingUser, hl]
      rw [happ]
      exact stepAllowed_refl _ _
    | some st =>
      have happ : applyUserOp ctx (UserOp.confirm f')
          = { ctx with
              pendingUsers := aerase f' ctx.pendingUsers,
              completedUserFutures := ctx.completedUserFutures ++ [f'],
              confirmedUsers :=
                aset f' (PendingUserState.confirm st).rref ctx.confirmedUsers } := by
        simp [applyUserOp, delPendingUser, hl, addConfirmedUser]
      by_cases hf : f = f'
      · subst hf
        have hs1 : userStatus ctx f = UserStatus.pending := by
          simp [userStatus, inPendingUsers, hl]
        have hs2 : userStatus (applyUserOp ctx (UserOp.confirm f)) f
            = UserStatus.confirmed := by
          rw [happ]
          simp [userStatus, inPendingUsers, inConfirmedUsers,
            alookup_aerase_self, alookup_aset_self]
        rw [hs1, hs2]
        rfl
      · have hp : alookup f (applyUserOp ctx (UserOp.confirm f')).pendingUsers
            = alookup f ctx.pendingUsers := by
          rw [happ]
          exact alookup_aerase_ne hf _
        have hc : alookup f (applyUserOp ctx (UserOp.confirm f')).confirmedUsers
            = alookup f ctx.confirmedUsers := by
          rw [happ]
          exact alookup_aset_ne hf _ _
        rw [userStatus_congr ctx _ f hp hc]
        exact stepAllowed_refl _ _
  | del o r f' =>
    by_cases hp' : (alookup f' ctx.pendingUsers).isSome = true
    · have happ : applyUserOp ctx (UserOp.del o r f') = ctx := by
        simp [applyUserOp, attemptUserDelete, hp']
      rw [happ]
      exact stepAllowed_refl _ _
    · by_cases hc' : (alookup f' ctx.confirmedUsers).isNone = true
      · have happ : applyUserOp ctx (UserOp.del o r f') = ctx := by
          simp [applyUserOp, attemptUserDelete, hp', hc']
        rw [happ]
        exact stepAllowed_refl _ _
      · by_cases hch : (valuesHolding f' ctx.pendingChildren).isEmpty = true
        · have happ : applyUserOp ctx (UserOp.del o r f')
              = performDelUser ctx o r f' := by
            simp [applyUserOp, attemptUserDelete, hp', hc', hch]
          by_cases hf : f = f'
          · subst hf
            have hp'' : inPendingUsers ctx f = false := by
              rw [inPendingUsers]
              exact Bool.eq_false_iff.mpr hp'
            have hc'' : inConfirmedUsers ctx f = true := by
              rw [inConfirmedUsers]
              cases hcc : alookup f ctx.confirmedUsers with
              | none => exact absurd (by rw [hcc]; rfl) hc'
              | some v => rfl
            have hs1 : userStatus ctx f = UserStatus.confirmed := by
              simp [userStatus, hp'', hc'']
            have hpn : alookup f ctx.pendingUsers = none := by
              cases hq : alookup f ctx.pendingUsers with
              | none => rfl
              | some v => exact absurd (by rw [hq]; rfl) hp'
            have hs2 : userStatus (applyUserOp ctx (UserOp.del o r f)) f
                = UserStatus.absent := by
              rw [happ]
              simp [performDelUser, userStatus, inPendingUsers, inConfirmedUsers,
                alookup_aerase_self, hpn]
            rw [hs1, hs2]
            rfl
          · have hp : alookup f (applyUserOp ctx (UserOp.del o r f')).pendingUsers
                = alookup f ctx.pendingUsers := by
              rw [happ]
              rfl
            have hc : alookup f (applyUserOp ctx (UserOp.del o r f')).confirmedUsers
                = alookup f ctx.confirmedUsers := by
              rw [happ]
              exact alookup_aerase_ne hf _
            rw [userStatus_congr ctx _ f hp hc]
            exact stepAllowed_refl _ _
        · have happ : applyUserOp ctx (UserOp.del o r f')
              = { ctx with
                  pendingDeletions := f' :: eraseFork f' ctx.pendingDeletions } := by
            simp [applyUserOp, attemptUserDelete, hp', hc', hch]
          have hp : alookup f (applyUserOp ctx (UserOp.del o r f')).pendingUsers
              = alookup f ctx.pendingUsers := by
            rw [happ]
          have hc : alookup f (applyUserOp ctx (UserOp.del o r f')).confirmedUsers
              = alookup f ctx.confirmedUsers := by
            rw [happ]
          rw [userStatus_congr ctx _ f hp hc]
          exact stepAllowed_refl _ _
  | shutdown =>
    have hs2 : userStatus (applyUserOp ctx UserOp.shutdown) f
        = UserStatus.absent := by
      simp [applyUserOp, delAllUsers, userStatus, inPendingUsers,
        inConfirmedUsers, alookup]
    rw [hs2]
    cases hs1 : userStatus ctx f with
    | absent => exact stepAllowed_refl _ _
    | pending => rfl
    | confirmed => rfl

theorem userInvariant_preserved (ctx : RRefContext) (op : UserOp)
    (h : userStateInvariant ctx = true) :
    userStateInvariant (applyUserOp ctx op) = true := by
  have hex : usersExclusive ctx = true := ((Bool.and_eq_true _ _).mp h).1
  have hbnd : userKeysBounded ctx = true := ((Bool.and_eq_true _ _).mp h).2
  have hbp := ((Bool.and_eq_true _ _).mp hbnd).1
  have hbc := ((Bool.and_eq_true _ _).mp hbnd).2
  cases op with
  | create ownerId ty =>
    rw [userStateInvariant, Bool.and_eq_true]
    constructor
    · simp only [usersExclusive, applyUserOp, createUserRRef,
        genGloballyUniqueId, addPendingUser, List.all_eq_true]
      intro p hp
      rcases List.mem_cons.mp hp with rfl | hmem
      · have hc0 := fresh_not_in_confirmed ctx hbnd
          ⟨ctx.workerId, ctx.nextLocalId + 1⟩ rfl (Nat.le_succ _)
        simp [inConfirmedUsers, hc0]
      · have hmem' := (mem_aerase.mp hmem).1
        have hold := List.all_eq_true.mp hex _ hmem'
        simpa [inConfirmedUsers] using hold
    · rw [userKeysBounded, Bool.and_eq_true]
      constructor
      · simp only [applyUserOp, createUserRRef, genGloballyUniqueId,
          addPendingUser, List.all_eq_true]
        intro p hp
        rcases List.mem_cons.mp hp with rfl | hmem
        · apply decide_eq_true
          intro
          exact Nat.lt_succ_self _
        · have hmem' := (mem_aerase.mp hmem).1
          have hold := of_decide_eq_true (List.all_eq_true.mp hbp _ hmem')
          apply decide_eq_true
          intro hcw
          exact Nat.lt_trans (hold hcw)
            (Nat.lt_trans (Nat.lt_succ_self _) (Nat.lt_succ_self _))
      · simp only [applyUserOp, createUserRRef, genGloballyUniqueId,
          addPendingUser, List.all_eq_true]
        intro p hp
        have hold := of_decide_eq_true (List.all_eq_true.mp hbc _ hp)
        apply decide_eq_true
        intro hcw
        exact Nat.lt_trans (hold hcw)
          (Nat.lt_trans (Nat.lt_succ_self _) (Nat.lt_succ_self _))
  | confirm f' =>
    cases hl : alookup f' ctx.pendingUsers with
    | none =>
      have happ : applyUserOp ctx (UserOp.confirm f') = ctx := by
        simp [applyUserOp, delPendingUser, hl]
      rw [happ]
      exact h
    | some st =>
      have happ : applyUserOp ctx (UserOp.confirm f')
          = { ctx with
              pendingUsers := aerase f' ctx.pendingUsers,
              completedUserFutures := ctx.completedUserFutures ++ [f'],
              confirmedUsers :=
                aset f' (PendingUserState.confirm st).rref ctx.confirmedUsers } := by
        simp [applyUserOp, delPendingUser, hl, addConfirmedUser]
      rw [happ, userStateInvariant, Bool.and_eq_true]
      constructor
      · simp only [usersExclusive, List.all_eq_true]
        intro p hp
        have hmm := mem_aerase.mp hp
        have hold := List.all_eq_true.mp hex _ hmm.1
        have hlk : alookup p.1
            (aset f' (PendingUserState.confirm st).rref ctx.confirmedUsers)
            = alookup p.1 ctx.confirmedUsers := alookup_aset_ne hmm.2 _ _
        simp only [inConfirmedUsers] at hold ⊢
        simpa [hlk] using hold
      · rw [userKeysBounded, Bool.and_eq_true]
        constructor
        · simp only [List.all_eq_true]
          intro p hp
          exact List.all_eq_true.mp hbp _ (mem_aerase.mp hp).1
        · simp only [List.all_eq_true]
          intro p hp
          rcases List.mem_cons.mp hp with rfl | hmem
          · have hmemp := alookup_mem hl
            exact List.all_eq_true.mp hbp _ hmemp
          · exact List.all_eq_true.mp hbc _ (mem_aerase.mp hmem).1
  | del o r f' =>
    by_cases hp' : (alookup f' ctx.pendingUsers).isSome = true
    · have happ : applyUserOp ctx (UserOp.del o r f') = ctx := by
        simp [applyUserOp, attemptUserDelete, hp']
      rw [happ]
      exact h
    · by_cases hc' : (alookup f' ctx.confirmedUsers).isNone = true
      · have happ : applyUserOp ctx (UserOp.del o r f') = ctx := by
          simp [applyUserOp, attemptUserDelete, hp', hc']
        rw [happ]
        exact h
      · by_cases hch : (valuesHolding f' ctx.pendingChildren).isEmpty = true
        · have happ : applyUserOp ctx (UserOp.del o r f')
              = performDelUser ctx o r f' := by
            simp [applyUserOp, attemptUserDelete, hp', hc', hch]
          rw [happ, userStateInvariant, Bool.and_eq_true]
          constructor
          · simp only [usersExclusive, performDelUser, List.all_eq_true]
            intro p hp
            by_cases hpf : p.1 = f'
            · have : alookup p.1 (aerase f' ctx.confirmedUsers) = none := by
                rw [hpf]
                exact alookup_aerase_self f' _
              simp [inConfirmedUsers, this]
            · have hold := List.all_eq_true.mp hex _ hp
              have hlk : alookup p.1 (aerase f' ctx.confirmedUsers)
                  = alookup p.1 ctx.confirmedUsers := alookup_aerase_ne hpf _
              simp only [inConfirmedUsers] at hold ⊢
              simpa [hlk] using hold
          · rw [userKeysBounded, Bool.and_eq_true]
            constructor
            · simp only [performDelUser, List.all_eq_true]
              intro p hp
              exact List.all_eq_true.mp hbp _ hp
            · simp only [performDelUser, List.all_eq_true]
              intro p hp
              exact List.all_eq_true.mp hbc _ (mem_aerase.mp hp).1
        · have happ : applyUserOp ctx (UserOp.del o r f')
              = { ctx with
                  pendingDeletions := f' :: eraseFork f' ctx.pendingDeletions } := by
            simp [applyUserOp, attemptUserDelete, hp', hc', hch]
          rw [happ]
          exact h
  | shutdown => rfl

theorem foldl_userInvariant :
    ∀ (ops : List UserOp) (ctx : RRefContext),
      userStateInvariant ctx = true →
      userStateInvariant (ops.foldl applyUserOp ctx) = true := by
  intro ops
  induction ops with
  | nil => intro ctx h; exact h
  | cons op rest ih =>
    intro ctx h
    exact ih _ (userInvariant_preserved ctx op h)

/-- C2: along every trace of User-lifecycle operations from a fresh context,
no ForkId is simultaneously in pending-users and confirmed-users, and each
operation moves each ForkId only along the state machine
Pending to Confirmed to Deleted: creation takes Absent to Pending,
acknowledgement takes Pending to Confirmed, deletion takes Confirmed to
Deleted and never back to Pending, and Pending reaches Deleted directly only
through the shutdown path. -/
theorem c2_exclusive_fork_state (wid : worker_id_t) (ops : List UserOp)
    (f : ForkId) (op : UserOp) :
    (inPendingUsers (runUserOps wid ops) f
       && inConfirmedUsers (runUserOps wid ops) f) = false
    ∧ stepAllowed op (userStatus (runUserOps wid ops) f)
        (userStatus (applyUserOp (runUserOps wid ops) op) f) = true := by
  have hinv : userStateInvariant (runUserOps wid ops) = true :=
    foldl_userInvariant ops (emptyContext wid) rfl
  exact ⟨exclusive_not_both _ ((Bool.and_eq_true _ _).mp hinv).1 f,
         userStep_allowed _ op f hinv⟩

theorem drop_length_append_singleton {α : Type} (l : List α) (x : α) :
    (l ++ [x]).drop l.length = [x] := by
  induction l with
  | nil => rfl
  | cons a rest ih => simp [ih]

theorem valuesHolding_aerase_sub (f : ForkId) (k : ForkId) :
    ∀ l : List (ForkId × UserRRef),
      valuesHolding f l = [] → valuesHolding f (aerase k l) = [] := by
  intro l
  induction l with
  | nil => intro _; rfl
  | cons e rest ih =>
    intro hv
    by_cases he : e.2.forkId = f
    · rw [valuesHolding, if_pos he] at hv
      cases hv
    · rw [valuesHolding, if_neg he] at hv
      rw [aerase]
      by_cases hk : k = e.1
      · rw [if_pos hk]
        exact ih hv
      · rw [if_neg hk, valuesHolding, if_neg he]
        exact ih hv

theorem isEmpty_eq_nil {α : Type} {l : List α} (h : l.isEmpty = true) :
    l = [] := by
  cases l with
  | nil => rfl
  | cons a t => cases h

theorem ne_nil_isEmpty {α : Type} {l : List α} (h : l ≠ []) :
    l.isEmpty = false := by
  cases l with
  | nil => exact absurd rfl h
  | cons a t => rfl

theorem attemptUserDelete_pendingChildren (ctx : RRefContext)
    (o : worker_id_t) (r : RRefId) (f : ForkId) :
    (attemptUserDelete ctx o r f).pendingChildren = ctx.pendingChildren := by
  rw [attemptUserDelete]
  split
  · rfl
  · split
    · rfl
    · split
      · rfl
      · rfl

theorem delPendingUser_pendingChildren (ctx : RRefContext) (f : ForkId) :
    (delPendingUser ctx f).pendingChildren = ctx.pendingChildren := by
  cases hl : alookup f ctx.pendingUsers with
  | none => simp [delPendingUser, hl]
  | some st => simp [delPendingUser, hl, addConfirmedUser]

theorem delPendingUser_sent (ctx : RRefContext) (f : ForkId) :
    (delPendingUser ctx f).sentDeleteNotices = ctx.sentDeleteNotices := by
  cases hl : alookup f ctx.pendingUsers with
  | none => simp [delPendingUser, hl]
  | some st => simp [delPendingUser, hl, addConfirmedUser]

theorem delPendingChild_none (ctx : RRefContext) (c : ForkId)
    (h : alookup c ctx.pendingChildren = none) : delPendingChild ctx c = ctx := by
  simp [delPendingChild, h]

theorem delPendingChild_some_pendingChildren (ctx : RRefContext) (c : ForkId)
    (parent : UserRRef) (h : alookup c ctx.pendingChildren = some parent) :
    (delPendingChild ctx c).pendingChildren = aerase c ctx.pendingChildren := by
  simp only [delPendingChild, h]
  split
  · rfl
  · rfl

theorem prepareChildFork_pendingChildren (ctx : RRefContext) (parent : UserRRef) :
    (prepareChildFork ctx parent).2.pendingChildren
      = aemplace ⟨ctx.workerId, ctx.nextLocalId⟩ parent ctx.pendingChildren := rfl

theorem prepareChildFork_sent (ctx : RRefContext) (parent : UserRRef) :
    (prepareChildFork ctx parent).2.sentDeleteNotices = ctx.sentDeleteNotices := rfl

theorem mem_aemplace {α β : Type} [DecidableEq α] (k : α) (v : β)
    (l : List (α × β)) (p : α × β) (h : p ∈ l) : p ∈ aemplace k v l := by
  rw [aemplace]
  cases alookup k l with
  | some w => exact h
  | none => exact List.mem_cons_of_mem _ h

/-- C4: a RREF_USER_DELETE notice for a parent fork is only ever emitted at
a moment where no pending-children entry holds that parent; entries leave
pendingChildren_ only through delPendingChild for the respective child,
regardless of the parent's own confirmation state; a deletion attempt on a
confirmed parent that still has an unacknowledged child sends no notice,
keeps the parent registered, and records the withheld deletion; and once
delPendingChild drops the last child of such a parent, the withheld deletion
notice is sent. -/
theorem c4_child_keepalive (ctx : RRefContext) (op : ChildOp)
    (o : worker_id_t) (r : RRefId) (f c : ForkId) (parent : UserRRef) :
    (∀ n ∈ (applyChildOp ctx op).sentDeleteNotices.drop
        ctx.sentDeleteNotices.length,
      valuesHolding n.2.2 (applyChildOp ctx op).pendingChildren = [])
    ∧ (∀ e ∈ ctx.pendingChildren,
        e ∈ (applyChildOp ctx op).pendingChildren
        ∨ op = ChildOp.childAccept e.1)
    ∧ ((alookup f ctx.pendingUsers).isSome = false →
       (alookup f ctx.confirmedUsers).isSome = true →
       valuesHolding f ctx.pendingChildren ≠ [] →
         (attemptUserDelete ctx o r f).sentDeleteNotices
             = ctx.sentDeleteNotices
         ∧ (alookup f (attemptUserDelete ctx o r f).confirmedUsers).isSome
             = true
         ∧ f ∈ (attemptUserDelete ctx o r f).pendingDeletions
         ∧ (attemptUserDelete ctx o r f).pendingChildren = ctx.pendingChildren)
    ∧ (alookup c ctx.pendingChildren = some parent →
       valuesHolding parent.forkId (aerase c ctx.pendingChildren) = [] →
       parent.forkId ∈ ctx.pendingDeletions →
         (delPendingChild ctx c).sentDeleteNotices
           = ctx.sentDeleteNotices
             ++ [(parent.ownerId, parent.rrefId, parent.forkId)]) := by
  refine ⟨?_, ?_, ?_, ?_⟩
  · cases op with
    | fork parent' =>
      intro n hn
      have hs : (applyChildOp ctx (ChildOp.fork parent')).sentDeleteNotices
          = ctx.sentDeleteNotices := rfl
      rw [hs, List.drop_length] at hn
      cases hn
    | confirm f'' =>
      intro n hn
      simp only [applyChildOp] at hn
      rw [delPendingUser_sent, List.drop_length] at hn
      cases hn
    | tryDel o' r' f'' =>
      intro n hn
      simp only [applyChildOp] at hn ⊢
      by_cases hp' : (alookup f'' ctx.pendingUsers).isSome = true
      · rw [show attemptUserDelete ctx o' r' f'' = ctx from by
          simp [attemptUserDelete, hp']] at hn
        rw [List.drop_length] at hn
        cases hn
      · by_cases hc' : (alookup f'' ctx.confirmedUsers).isNone = true
        · rw [show attemptUserDelete ctx o' r' f'' = ctx from by
            simp [attemptUserDelete, hp', hc']] at hn
          rw [List.drop_length] at hn
          cases hn
        · by_cases hch : (valuesHolding f'' ctx.pendingChildren).isEmpty = true
          · have happ : attemptUserDelete ctx o' r' f''
                = performDelUser ctx o' r' f'' := by
              simp [attemptUserDelete, hp', hc', hch]
            rw [happ] at hn ⊢
            have hsent : (performDelUser ctx o' r' f'').sentDeleteNotices
                = ctx.sentDeleteNotices ++ [(o', r', f'')] := rfl
            rw [hsent, drop_length_append_singleton] at hn
            have hn' : n = (o', r', f'') := List.mem_singleton.mp hn
            subst hn'
            have hpc : (performDelUser ctx o' r' f'').pendingChildren
                = ctx.pendingChildren := rfl
            rw [hpc]
            exact isEmpty_eq_nil hch
          · have happ : attemptUserDelete ctx o' r' f''
                = { ctx with
                    pendingDeletions := f'' :: eraseFork f'' ctx.pendingDeletions } := by
              simp [attemptUserDelete, hp', hc', hch]
            rw [happ] at hn
            rw [show ({ ctx with
                pendingDeletions := f'' :: eraseFork f'' ctx.pendingDeletions }
                  : RRefContext).sentDeleteNotices = ctx.sentDeleteNotices from rfl,
              List.drop_length] at hn
            cases hn
    | childAccept c' =>
      intro n hn
      simp only [applyChildOp] at hn ⊢
      cases hlc : alookup c' ctx.pendingChildren with
      | none =>
        rw [delPendingChild_none ctx c' hlc, List.drop_length] at hn
        cases hn
      | some parent' =>
        by_cases hcb : ((valuesHolding parent'.forkId
              (aerase c' ctx.pendingChildren)).isEmpty
            && decide (parent'.forkId ∈ ctx.pendingDeletions)) = true
        · have happ : delPendingChild ctx c'
              = performDelUser
                  { ctx with pendingChildren := aerase c' ctx.pendingChildren }
                  parent'.ownerId parent'.rrefId parent'.forkId := by
            simp [delPendingChild, hlc, hcb]
          rw [happ] at hn ⊢
          have hsent : (performDelUser
              { ctx with pendingChildren := aerase c' ctx.pendingChildren }
              parent'.ownerId parent'.rrefId parent'.forkId).sentDeleteNotices
              = ctx.sentDeleteNotices
                ++ [(parent'.ownerId, parent'.rrefId, parent'.forkId)] := rfl
          rw [hsent, drop_length_append_singleton] at hn
          have hn' := List.mem_singleton.mp hn
          subst hn'
          have hpc : (performDelUser
              { ctx with pendingChildren := aerase c' ctx.pendingChildren }
              parent'.ownerId parent'.rrefId parent'.forkId).pendingChildren
              = aerase c' ctx.pendingChildren := rfl
          rw [hpc]
          exact isEmpty_eq_nil ((Bool.and_eq_true _ _).mp hcb).1
        · have happ : delPendingChild ctx c'
              = { ctx with pendingChildren := aerase c' ctx.pendingChildren } := by
            simp [delPendingChild, hlc, hcb]
          rw [happ] at hn
          rw [show ({ ctx with
              pendingChildren := aerase c' ctx.pendingChildren }
                : RRefContext).sentDeleteNotices
              = ctx.sentDeleteNotices from rfl, List.drop_length] at hn
          cases hn
  · intro e he
    cases op with
    | fork parent' =>
      left
      have hpc : (applyChildOp ctx (ChildOp.fork parent')).pendingChildren
          = aemplace ⟨ctx.workerId, ctx.nextLocalId⟩ parent' ctx.pendingChildren := rfl
      rw [hpc]
      exact mem_aemplace _ _ _ _ he
    | confirm f'' =>
      left
      have hpc : (applyChildOp ctx (ChildOp.confirm f'')).pendingChildren
          = ctx.pendingChildren := delPendingUser_pendingChildren ctx f''
      rw [hpc]
      exact he
    | tryDel o' r' f'' =>
      left
      have hpc : (applyChildOp ctx (ChildOp.tryDel o' r' f'')).pendingChildren
          = ctx.pendingChildren := attemptUserDelete_pendingChildren ctx o' r' f''
      rw [hpc]
      exact he
    | childAccept c' =>
      by_cases hec : e.1 = c'
      · right
        rw [hec]
      · left
        cases hlc : alookup c' ctx.pendingChildren with
        | none =>
          have hid : applyChildOp ctx (ChildOp.childAccept c') = ctx :=
            delPendingChild_none ctx c' hlc
          rw [hid]
          exact he
        | some parent' =>
          have hpc : (applyChildOp ctx (ChildOp.childAccept c')).pendingChildren
              = aerase c' ctx.pendingChildren :=
            delPendingChild_some_pendingChildren ctx c' parent' hlc
          rw [hpc]
          exact mem_aerase.mpr ⟨he, hec⟩
  · intro h1 h2 h3
    have hpn : ¬((alookup f ctx.pendingUsers).isSome = true) := by
      rw [h1]
      exact Bool.false_ne_true
    have hcn : ¬((alookup f ctx.confirmedUsers).isNone = true) := by
      cases hx : alookup f ctx.confirmedUsers with
      | none =>
        rw [hx] at h2
        cases h2
      | some v =>
        intro hcontra
        cases hcontra
    have hce : ¬((valuesHolding f ctx.pendingChildren).isEmpty = true) := by
      rw [ne_nil_isEmpty h3]
      exact Bool.false_ne_true
    have happ : attemptUserDelete ctx o r f
        = { ctx with pendingDeletions := f :: eraseFork f ctx.pendingDeletions } := by
      simp [attemptUserDelete, hpn, hcn, hce]
    rw [happ]
    exact ⟨rfl, h2, List.mem_cons_self _ _, rfl⟩
  · intro hc4 hvh hpd
    have h1 : (valuesHolding parent.forkId (aerase c ctx.pendingChildren)).isEmpty
        = true := by
      rw [hvh]
      rfl
    have h2 : decide (parent.forkId ∈ ctx.pendingDeletions) = true :=
      decide_eq_true hpd
    have happ : delPendingChild ctx c
        = performDelUser { ctx with pendingChildren := aerase c ctx.pendingChildren }
            parent.ownerId parent.rrefId parent.forkId := by
      simp [delPendingChild, hc4, h1, h2]
    rw [happ]
    rfl

theorem c4_child_keepalive_witness :
    (attemptUserDelete ctxParentHeld 1 ⟨1, 5⟩ ⟨0, 1⟩).sentDeleteNotices = []
    ∧ (alookup ⟨0, 1⟩ (attemptUserDelete ctxParentHeld 1 ⟨1, 5⟩ ⟨0, 1⟩).confirmedUsers).isSome
        = true
    ∧ (⟨0, 1⟩ : ForkId) ∈ (attemptUserDelete ctxParentHeld 1 ⟨1, 5⟩ ⟨0, 1⟩).pendingDeletions := by
  have h := (c4_child_keepalive ctxParentHeld
      (ChildOp.tryDel 1 ⟨1, 5⟩ ⟨0, 1⟩) 1 ⟨1, 5⟩ ⟨0, 1⟩ ⟨0, 2⟩ parentUserW).2.2.1
    (by decide) (by decide) (by decide)
  exact ⟨h.1, h.2.1, h.2.2.1⟩

theorem delPendingUser_completed_mono (ctx : RRefContext) (g f : ForkId)
    (h : f ∈ ctx.completedUserFutures) :
    f ∈ (delPendingUser ctx g).completedUserFutures := by
  cases hl : alookup g ctx.pendingUsers with
  | none => simpa [delPendingUser, hl] using h
  | some st =>
    simp only [delPendingUser, hl, addConfirmedUser, List.mem_append]
    exact Or.inl h

theorem delPendingUser_completed_sub (ctx : RRefContext) (g f : ForkId)
    (h : f ∈ (delPendingUser ctx g).completedUserFutures) :
    f ∈ ctx.completedUserFutures ∨ f = g := by
  cases hl : alookup g ctx.pendingUsers with
  | none =>
    left
    simpa [delPendingUser, hl] using h
  | some st =>
    have h' : f ∈ ctx.completedUserFutures ++ [g] := by
      simpa [delPendingUser, hl, addConfirmedUser] using h
    rcases List.mem_append.mp h' with h1 | h1
    · exact Or.inl h1
    · exact Or.inr (List.mem_singleton.mp h1)

theorem delPendingUser_pending_other (ctx : RRefContext) (g f : ForkId)
    (hne : f ≠ g) :
    alookup f (delPendingUser ctx g).pendingUsers
      = alookup f ctx.pendingUsers := by
  cases hl : alookup g ctx.pendingUsers with
  | none => simp [delPendingUser, hl]
  | some st => simp [delPendingUser, hl, addConfirmedUser, alookup_aerase_ne hne]

theorem delPendingUser_confirms (ctx : RRefContext) (f : ForkId)
    (h : (alookup f ctx.pendingUsers).isSome = true) :
    f ∈ (delPendingUser ctx f).completedUserFutures := by
  cases hl : alookup f ctx.pendingUsers with
  | none =>
    rw [hl] at h
    cases h
  | some st => simp [delPendingUser, hl, addConfirmedUser, List.mem_append]

theorem confirmAll_mono :
    ∀ (l : List ForkId) (ctx : RRefContext) (f : ForkId),
      f ∈ ctx.completedUserFutures →
      f ∈ (confirmAll ctx l).completedUserFutures := by
  intro l
  induction l with
  | nil => intro ctx f h; exact h
  | cons g rest ih =>
    intro ctx f h
    simp only [confirmAll, List.foldl_cons]
    exact ih (delPendingUser ctx g) f (delPendingUser_completed_mono ctx g f h)

theorem confirmAll_sub :
    ∀ (l : List ForkId) (ctx : RRefContext) (f : ForkId),
      f ∈ (confirmAll ctx l).completedUserFutures →
      f ∈ ctx.completedUserFutures ∨ f ∈ l := by
  intro l
  induction l with
  | nil => intro ctx f h; exact Or.inl h
  | cons g rest ih =>
    intro ctx f h
    simp only [confirmAll, List.foldl_cons] at h
    rcases ih (delPendingUser ctx g) f h with h1 | h1
    · rcases delPendingUser_completed_sub ctx g f h1 with h2 | h2
      · exact Or.inl h2
      · refine Or.inr ?_
        rw [h2]
        exact List.mem_cons_self g rest
    · exact Or.inr (List.mem_cons_of_mem g h1)

theorem confirmAll_hits :
    ∀ (l : List ForkId) (ctx : RRefContext) (f : ForkId), f ∈ l →
      ((alookup f ctx.pendingUsers).isSome = true
        ∨ f ∈ ctx.completedUserFutures) →
      f ∈ (confirmAll ctx l).completedUserFutures := by
  intro l
  induction l with
  | nil => intro ctx f h _; cases h
  | cons g rest ih =>
    intro ctx f hmem hdisj
    simp only [confirmAll, List.foldl_cons]
    by_cases hfg : f = g
    · subst hfg
      rcases hdisj with h1 | h1
      · exact confirmAll_mono rest _ f (delPendingUser_confirms ctx f h1)
      · exact confirmAll_mono rest _ f (delPendingUser_completed_mono ctx f f h1)
    · have hmem' : f ∈ rest := by
        rcases List.mem_cons.mp hmem with h2 | h2
        · exact absurd h2 hfg
        · exact h2
      refine ih (delPendingUser ctx g) f hmem' ?_
      rcases hdisj with h1 | h1
      · left
        rw [delPendingUser_pending_other ctx g f hfg]
        exact h1
      · right
        exact delPendingUser_completed_mono ctx g f h1

theorem barrierCompleted_iff (ctx : RRefContext) (b : List ForkId) :
    barrierCompleted ctx b = true ↔ ∀ f ∈ b, f ∈ ctx.completedUserFutures := by
  rw [barrierCompleted, List.all_eq_true]
  constructor
  · intro h f hf
    exact of_decide_eq_true (h f hf)
  · intro h f hf
    exact decide_eq_true (h f hf)

theorem createUsersN_spec (ownerId : worker_id_t) (ty : TypePtr) :
    ∀ (n : Nat) (ctx : RRefContext),
      (createUsersN ctx ownerId ty n).2.workerId = ctx.workerId
      ∧ (createUsersN ctx ownerId ty n).2.completedUserFutures
          = ctx.completedUserFutures
      ∧ (createUsersN ctx ownerId ty n).2.recording = ctx.recording
      ∧ (ctx.recording = true →
          (createUsersN ctx ownerId ty n).2.userTable
            = ctx.userTable ++ (createUsersN ctx ownerId ty n).1)
      ∧ (∀ g ∈ (createUsersN ctx ownerId ty n).1,
          g.createdOn = ctx.workerId ∧ ctx.nextLocalId ≤ g.localId)
      ∧ (∀ g : ForkId,
          (g.createdOn = ctx.workerId → g.localId < ctx.nextLocalId) →
          alookup g (createUsersN ctx ownerId ty n).2.pendingUsers
            = alookup g ctx.pendingUsers)
      ∧ (∀ g ∈ (createUsersN ctx ownerId ty n).1,
          (alookup g (createUsersN ctx ownerId ty n).2.pendingUsers).isSome
            = true) := by
  intro n
  induction n with
  | zero =>
    intro ctx
    refine ⟨rfl, rfl, rfl, fun _ => by simp [createUsersN], ?_, fun g _ => rfl, ?_⟩
    · intro g hg
      cases hg
    · intro g hg
      cases hg
  | succ n ih =>
    intro ctx
    obtain ⟨ihwk, ihcf, ihrec, ihut, ihb, ihpres, ihpend⟩ :=
      ih (createUserRRef ctx ownerId ty).2
    have hq : createUsersN ctx ownerId ty (n + 1)
        = ((createUserRRef ctx ownerId ty).1.forkId
            :: (createUsersN (createUserRRef ctx ownerId ty).2 ownerId ty n).1,
           (createUsersN (createUserRRef ctx ownerId ty).2 ownerId ty n).2) := rfl
    have hfid : (createUserRRef ctx ownerId ty).1.forkId
        = (⟨ctx.workerId, ctx.nextLocalId + 1⟩ : ForkId) := rfl
    have hc1wk : (createUserRRef ctx ownerId ty).2.workerId = ctx.workerId := rfl
    have hc1nl : (createUserRRef ctx ownerId ty).2.nextLocalId
        = ctx.nextLocalId + 1 + 1 := rfl
    have hc1cf : (createUserRRef ctx ownerId ty).2.completedUserFutures
        = ctx.completedUserFutures := rfl
    have hc1rec : (createUserRRef ctx ownerId ty).2.recording = ctx.recording := rfl
    have hc1pu : (createUserRRef ctx ownerId ty).2.pendingUsers
        = aset ⟨ctx.workerId, ctx.nextLocalId + 1⟩
            { rref := (createUserRRef ctx ownerId ty).1, futureCompleted := false }
            ctx.pendingUsers := rfl
    refine ⟨?_, ?_, ?_, ?_, ?_, ?_, ?_⟩
    · rw [hq]
      exact ihwk.trans hc1wk
    · rw [hq]
      exact ihcf.trans hc1cf
    · rw [hq]
      exact ihrec.trans hc1rec
    · intro hrec
      have hrec1 : (createUserRRef ctx ownerId ty).2.recording = true :=
        hc1rec.trans hrec
      have hut1 : (createUserRRef ctx ownerId ty).2.userTable
          = ctx.userTable ++ [⟨ctx.workerId, ctx.nextLocalId + 1⟩] := by
        simp [createUserRRef, addPendingUser, genGloballyUniqueId, hrec]
      rw [hq]
      rw [ihut hrec1, hut1, hfid, List.append_assoc, List.singleton_append]
    · intro g hg
      rw [hq] at hg
      rcases List.mem_cons.mp hg with rfl | hmem
      · rw [hfid]
        exact ⟨rfl, Nat.le_succ _⟩
      · have hb := ihb g hmem
        refine ⟨hb.1.trans hc1wk, ?_⟩
        have h2 := hb.2
        rw [hc1nl] at h2
        exact Nat.le_trans (Nat.le_trans (Nat.le_succ _) (Nat.le_succ _)) h2
    · intro g hbound
      have hbound1 : g.createdOn = (createUserRRef ctx ownerId ty).2.workerId →
          g.localId < (createUserRRef ctx ownerId ty).2.nextLocalId := by
        intro hcw
        rw [hc1nl]
        rw [hc1wk] at hcw
        exact Nat.lt_trans (hbound hcw)
          (Nat.lt_trans (Nat.lt_succ_self _) (Nat.lt_succ_self _))
      have hgne : g ≠ (⟨ctx.workerId, ctx.nextLocalId + 1⟩ : ForkId) := by
        intro he
        have hlt := hbound (by rw [he])
        rw [he] at hlt
        exact Nat.not_succ_le_self _ (Nat.le_of_lt hlt)
      rw [hq]
      rw [ihpres g hbound1, hc1pu]
      exact alookup_aset_ne hgne _ _
    · intro g hg
      rw [hq] at hg ⊢
      rcases List.mem_cons.mp hg with rfl | hmem
      · have hbound1 : (createUserRRef ctx ownerId ty).1.forkId.createdOn
              = (createUserRRef ctx ownerId ty).2.workerId →
            (createUserRRef ctx ownerId ty).1.forkId.localId
              < (createUserRRef ctx ownerId ty).2.nextLocalId :=
          fun _ => Nat.lt_succ_self _
        rw [ihpres _ hbound1, hc1pu, hfid, alookup_aset_self]
        rfl
      · exact ihpend g hmem

/-- C6: opening a recording window, creating n User references inside it and
closing the window with waitForThreadLocalPendingRRefs returns exactly those
n references as the barrier; for any order in which owner acknowledgements
then arrive, the barrier future is completed exactly when every one of the n
references has been individually confirmed; and with no recorded references
the barrier is already completed. -/
theorem c6_barrier_completeness (ctx : RRefContext) (ownerId : worker_id_t)
    (ty : TypePtr) (n : Nat) (l : List ForkId)
    (hfresh : ∀ g ∈ ctx.completedUserFutures,
        g.createdOn = ctx.workerId → g.localId < ctx.nextLocalId) :
    (waitForThreadLocalPendingRRefs
        (createUsersN (recordThreadLocalPendingRRefs ctx) ownerId ty n).2).1
      = (createUsersN (recordThreadLocalPendingRRefs ctx) ownerId ty n).1
    ∧ (barrierCompleted
        (confirmAll
          (waitForThreadLocalPendingRRefs
            (createUsersN (recordThreadLocalPendingRRefs ctx) ownerId ty n).2).2
          l)
        (createUsersN (recordThreadLocalPendingRRefs ctx) ownerId ty n).1 = true
      ↔ ∀ f ∈ (createUsersN (recordThreadLocalPendingRRefs ctx) ownerId ty n).1,
          f ∈ l)
    ∧ (n = 0 → barrierCompleted
        (waitForThreadLocalPendingRRefs
          (createUsersN (recordThreadLocalPendingRRefs ctx) ownerId ty n).2).2
        (createUsersN (recordThreadLocalPendingRRefs ctx) ownerId ty n).1
          = true) := by
  obtain ⟨hwk, hcf, hrec, hut, hbounds, hpres, hpend⟩ :=
    createUsersN_spec ownerId ty n (recordThreadLocalPendingRRefs ctx)
  refine ⟨?_, ?_, ?_⟩
  · exact (hut rfl).trans (List.nil_append _)
  · constructor
    · intro hb f hf
      have hcomp := (barrierCompleted_iff _ _).mp hb f hf
      rcases confirmAll_sub l _ f hcomp with h1 | h1
      · exfalso
        have hf2 : f ∈ ctx.completedUserFutures := by
          have e1 : (waitForThreadLocalPendingRRefs
              (createUsersN (recordThreadLocalPendingRRefs ctx) ownerId ty n).2).2.completedUserFutures
              = (createUsersN (recordThreadLocalPendingRRefs ctx) ownerId ty n).2.completedUserFutures := rfl
          rw [e1, hcf] at h1
          exact h1
        have hb1 := hbounds f hf
        have hfr := hfresh f hf2 hb1.1
        exact absurd hfr (Nat.not_lt.mpr hb1.2)
      · exact h1
    · intro hl
      rw [barrierCompleted_iff]
      intro f hf
      refine confirmAll_hits l _ f (hl f hf) ?_
      left
      exact hpend f hf
  · intro hn
    subst hn
    rfl

theorem c6_barrier_completeness_witness :
    barrierCompleted
      (confirmAll
        (waitForThreadLocalPendingRRefs
          (createUsersN (recordThreadLocalPendingRRefs (emptyContext 0)) 1 0 2).2).2
        [⟨0, 3⟩, ⟨0, 1⟩])
      (createUsersN (recordThreadLocalPendingRRefs (emptyContext 0)) 1 0 2).1
      = true :=
  ((c6_barrier_completeness (emptyContext 0) 1 0 2 [⟨0, 3⟩, ⟨0, 1⟩]
      (by intro g hg; cases hg)).2.1).mpr (by decide)

theorem c9_destroy_default_ignores_leaks_witness :
    destroyInstance (emptyContext 0) = destroyInstance (emptyContext 0) true
    ∧ destroyInstance (emptyContext 0)
        ≠ Except.error RRefError.RRefLeakDetected :=
  ⟨c9_destroy_default_ignores_leaks.1 (emptyContext 0),
   c9_destroy_default_ignores_leaks.2.1 (emptyContext 0)
     RRefError.RRefLeakDetected⟩
